import Mathlib

/-!
Verification of the step-based workflow executor of `docker-qgis/utils.py`
(classes `Workflow`, `Step`, `StepOutput`, `WorkDirPath`, the validation
algorithm `Workflow.validate`, the runner `run_workflow` and the JSON
fallback `json_default`), as a shallow embedding.

Python dictionaries are embedded as association lists with first-match
lookup; dictionary assignment `d[k] = v` is `insertReplace` (replace the
value at the first occurrence of the key, else append), and the
`all_step_returns.get(step.id, step.return_names)` idiom of `validate` is
`insertIfAbsent`.  Exceptions are `Except`; the mutable `step.stage` field
(shared `Step` objects, mutated by `logger_context`) is threaded as an
explicit list of stages parallel to the step list, so that stale stages
from a previous invocation are representable.  The filesystem is a set of
directories plus files with contents; `Path.mkdir(parents=True,
exist_ok=True)` adds every missing prefix of the path and never removes
anything.
-/

namespace QFC

/-- Dynamic (Python) values flowing through a workflow: numbers, strings,
filesystem paths (as segment lists, the embedding of `pathlib.Path`) and
tuple-like sequences.  Tuples are the only iterable values of the model;
`vpath` is the only value the JSON encoder cannot serialize directly. -/
inductive Val where
  | vnat : Nat → Val
  | vstr : String → Val
  | vpath : List String → Val
  | vtup : List Val → Val

/-- Filesystem model: the set of existing directories (as paths given by
their segment lists) and the existing files with their contents. -/
structure FS where
  dirs : List (List String)
  files : List (List String × String)

/-- All prefixes of a path, from the empty path up to the path itself:
the chain of ancestors `mkdir(parents=True)` has to create. -/
def allPrefixes (p : List String) : List (List String) :=
  (List.range (p.length + 1)).map (fun k => p.take k)

/-- Add each directory of the second list that is not already present. -/
def addDirs (ds : List (List String)) : List (List String) → List (List String)
  | [] => ds
  | d :: rest => if d ∈ ds then addDirs ds rest else addDirs (ds ++ [d]) rest

/-- Model of `Path.mkdir(parents=True, exist_ok=True)`: create the
directory and all its ancestors, never failing and never removing
anything. -/
def mkdirParents (fs : FS) (p : List String) : FS :=
  { fs with dirs := addDirs fs.dirs (allPrefixes p) }

/-- `WorkDirPath(*parts, mkdir=...)` of `docker-qgis/utils.py`. -/
structure WorkDirPath where
  parts : List String
  mkdir : Bool

/-- `WorkDirPath.eval(root)`: return `root.joinpath(*parts)`, first creating
the directory tree when `mkdir` is set.  The filesystem effect is returned
alongside the path. -/
def WorkDirPath.eval (w : WorkDirPath) (root : List String) (fs : FS) :
    List String × FS :=
  let path := root ++ w.parts
  if w.mkdir then (path, mkdirParents fs path) else (path, fs)

theorem mem_addDirs_of_mem (x : List String) :
    ∀ (new ds : List (List String)), x ∈ ds → x ∈ addDirs ds new := by
  intro new
  induction new with
  | nil => intro ds h; simpa [addDirs] using h
  | cons d rest ih =>
      intro ds h
      by_cases hd : d ∈ ds
      · simpa [addDirs, hd] using ih ds h
      · simpa [addDirs, hd] using ih (ds ++ [d]) (List.mem_append_left _ h)

theorem mem_addDirs_of_mem_new (x : List String) :
    ∀ (new ds : List (List String)), x ∈ new → x ∈ addDirs ds new := by
  intro new
  induction new with
  | nil => intro ds h; cases h
  | cons d rest ih =>
      intro ds h
      rcases List.mem_cons.mp h with h | h
      · subst h
        by_cases hd : x ∈ ds
        · simpa [addDirs, hd] using mem_addDirs_of_mem x rest ds hd
        · have : x ∈ ds ++ [x] := List.mem_append_right _ (List.mem_singleton.mpr rfl)
          simpa [addDirs, hd] using mem_addDirs_of_mem x rest (ds ++ [x]) this
      · by_cases hd : d ∈ ds
        · simpa [addDirs, hd] using ih ds h
        · simpa [addDirs, hd] using ih (ds ++ [d]) h

theorem addDirs_eq_of_subset :
    ∀ (new ds : List (List String)), (∀ x ∈ new, x ∈ ds) → addDirs ds new = ds := by
  intro new
  induction new with
  | nil => intro ds _; rfl
  | cons d rest ih =>
      intro ds h
      have hd : d ∈ ds := h d (List.mem_cons_self _ _)
      have : addDirs ds (d :: rest) = addDirs ds rest := by simp [addDirs, hd]
      rw [this]
      exact ih ds (fun x hx => h x (List.mem_cons_of_mem _ hx))

/-- C8: for every root and every `WorkDirPath` with `mkdir` set,
`eval root` returns the path `root/p1/.../pn`, creates that directory and
all its parents, never removes an existing directory and never touches the
content of any file; evaluating a second time against the same root
returns the same path and leaves the filesystem exactly as it was (so it
does not raise and deletes nothing). -/
theorem workDirPath_eval_spec (w : WorkDirPath) (root : List String) (fs : FS)
    (hmk : w.mkdir = true) :
    (w.eval root fs).1 = root ++ w.parts
    ∧ (∀ q ∈ allPrefixes (root ++ w.parts), q ∈ (w.eval root fs).2.dirs)
    ∧ (∀ d ∈ fs.dirs, d ∈ (w.eval root fs).2.dirs)
    ∧ (w.eval root fs).2.files = fs.files
    ∧ w.eval root (w.eval root fs).2 = ((w.eval root fs).1, (w.eval root fs).2) := by
  refine ⟨?_, ?_, ?_, ?_, ?_⟩
  · simp [WorkDirPath.eval, hmk]
  · intro q hq
    simpa [WorkDirPath.eval, hmk, mkdirParents] using
      mem_addDirs_of_mem_new q (allPrefixes (root ++ w.parts)) fs.dirs hq
  · intro d hd
    simpa [WorkDirPath.eval, hmk, mkdirParents] using
      mem_addDirs_of_mem d (allPrefixes (root ++ w.parts)) fs.dirs hd
  · simp [WorkDirPath.eval, hmk, mkdirParents]
  · have hsub : ∀ x ∈ allPrefixes (root ++ w.parts),
        x ∈ addDirs fs.dirs (allPrefixes (root ++ w.parts)) :=
      fun x hx => mem_addDirs_of_mem_new x _ fs.dirs hx
    simp [WorkDirPath.eval, hmk, mkdirParents, addDirs_eq_of_subset _ _ hsub]

/-- Witness for C8: concrete evaluation of `WorkDirPath(["a","b"], mkdir=True)`
against root `r` on an empty filesystem. -/
theorem workDirPath_eval_spec_witness :
    ((WorkDirPath.mk ["a", "b"] true).eval ["r"] (FS.mk [] [])).1 = ["r"] ++ ["a", "b"]
    ∧ (WorkDirPath.mk ["a", "b"] true).eval ["r"]
        ((WorkDirPath.mk ["a", "b"] true).eval ["r"] (FS.mk [] [])).2 =
      (((WorkDirPath.mk ["a", "b"] true).eval ["r"] (FS.mk [] [])).1,
        ((WorkDirPath.mk ["a", "b"] true).eval ["r"] (FS.mk [] [])).2) :=
  ⟨(workDirPath_eval_spec (WorkDirPath.mk ["a", "b"] true) ["r"] (FS.mk [] []) rfl).1,
    (workDirPath_eval_spec (WorkDirPath.mk ["a", "b"] true) ["r"] (FS.mk [] []) rfl).2.2.2.2⟩

/-- Python parameter kinds as reported by `inspect.signature`. -/
inductive ParamKind where
  | positionalOnly
  | positionalOrKeyword
  | varPositional
  | keywordOnly
  | varKeyword
  deriving DecidableEq, Repr

/-- One declared parameter of an operation's signature. -/
structure Param where
  name : String
  kind : ParamKind

/-- Run-time exceptions of the embedding: an exception raised inside an
operation, a dictionary `KeyError`, or the `TypeError` raised by `zip`
when its second argument is not iterable. -/
inductive PyErr where
  | user : String → PyErr
  | keyError : String → PyErr
  | typeError : String → PyErr

/-- `str(err)` for the embedded exceptions (`str` of a Python `KeyError`
is the quoted key). -/
def PyErr.toMsg : PyErr → String
  | .user m => m
  | .keyError k => "'" ++ k ++ "'"
  | .typeError m => m

/-- Model of `traceback.format_tb` on the traceback of an exception.  The
real content is interpreter state; the model keeps only a non-empty list
derived from the exception, since the code only ever stores it whole. -/
def formatTb (e : PyErr) : List String := [e.toMsg]

/-- An operation: a callable with an introspectable signature.  Its
behaviour is a function from the resolved keyword arguments (an
association list, the embedding of `**arguments`) to a result or a raised
exception. -/
structure Operation where
  name : String
  params : List Param
  run : List (String × Val) → Except PyErr Val

/-- A value in a step's `arguments` mapping: a literal, a
`StepOutput(step_id, return_name)` reference, or a `WorkDirPath`. -/
inductive ArgValue where
  | lit : Val → ArgValue
  | stepOutput : String → String → ArgValue
  | workDirPath : WorkDirPath → ArgValue

/-- `Step` of `docker-qgis/utils.py` (without the mutable `stage` field,
which is run-time state threaded separately by the runner model). -/
structure Step where
  id : String
  name : String
  method : Operation
  arguments : List (String × ArgValue)
  return_names : List String
  outputs : List String

/-- `Workflow` of `docker-qgis/utils.py`. -/
structure Workflow where
  id : String
  version : String
  name : String
  description : String
  steps : List Step

/-- Validation failures, one constructor per `raise` site of
`Workflow.validate`, carrying the identifying data the exception message
interpolates. -/
inductive VErr where
  | noSteps
  | nonKeywordParam (methodName paramName : String)
  | paramNotInArguments (methodName paramName : String)
  | unknownStepId (stepId argName refStepId refReturnName : String)
  | unknownReturnName (stepId argName refStepId refReturnName : String)
  | strayArgument (methodName argName : String)
  deriving DecidableEq, Repr

/-- The keys of a step's `arguments` dictionary. -/
def argKeys (s : Step) : List String := s.arguments.map Prod.fst

/-- The parameter loop of `Workflow.validate`: reject any parameter whose
kind is neither `KEYWORD_ONLY` nor `POSITIONAL_OR_KEYWORD`, require each
parameter name to be a key of `arguments`, and accumulate the parameter
names in signature order. -/
def checkParams (s : Step) : List Param → List String → Except VErr (List String)
  | [], acc => .ok acc
  | p :: rest, acc =>
    if p.kind ≠ ParamKind.keywordOnly ∧ p.kind ≠ ParamKind.positionalOrKeyword then
      .error (.nonKeywordParam s.method.name p.name)
    else if p.name ∈ argKeys s then
      checkParams s rest (acc ++ [p.name])
    else
      .error (.paramNotInArguments s.method.name p.name)

/-- Table from step id to that step's declared `return_names`
(`all_step_returns` in the source). -/
abbrev RetNamesTable := List (String × List String)

/-- The argument loop of `Workflow.validate`: any `StepOutput` value must
point at an id present in the accumulated table and at one of its return
names, and every argument key must be a declared parameter name.  The
checks run in the source's order: the `StepOutput` checks of an entry come
before its stray-argument check. -/
def checkArgs (s : Step) (tbl : RetNamesTable) (paramNames : List String) :
    List (String × ArgValue) → Except VErr Unit
  | [] => .ok ()
  | (n, v) :: rest =>
    match v with
    | .stepOutput sid rn =>
      match tbl.lookup sid with
      | none => .error (.unknownStepId s.id n sid rn)
      | some rets =>
        if rn ∈ rets then
          if n ∈ paramNames then checkArgs s tbl paramNames rest
          else .error (.strayArgument s.method.name n)
        else .error (.unknownReturnName s.id n sid rn)
    | _ =>
      if n ∈ paramNames then checkArgs s tbl paramNames rest
      else .error (.strayArgument s.method.name n)

/-- `all_step_returns[step.id] = all_step_returns.get(step.id, step.return_names)`:
keep an existing entry, append a new one otherwise. -/
def insertIfAbsent (tbl : RetNamesTable) (k : String) (v : List String) :
    RetNamesTable :=
  match tbl.lookup k with
  | some _ => tbl
  | none => tbl ++ [(k, v)]

/-- The step loop of `Workflow.validate`. -/
def validateLoop (tbl : RetNamesTable) : List Step → Except VErr Unit
  | [] => .ok ()
  | s :: rest =>
    match checkParams s s.method.params [] with
    | .error e => .error e
    | .ok paramNames =>
      match checkArgs s tbl paramNames s.arguments with
      | .error e => .error e
      | .ok _ => validateLoop (insertIfAbsent tbl s.id s.return_names) rest

/-- `Workflow.validate`, run at construction: reject an empty step list,
then run the step loop against an initially empty returns table. -/
def Workflow.validate (wf : Workflow) : Except VErr Unit :=
  if wf.steps.isEmpty then .error .noSteps
  else validateLoop [] wf.steps

/-- The table accumulated by the validation loop after a list of steps. -/
def buildTable (tbl : RetNamesTable) (steps : List Step) : RetNamesTable :=
  steps.foldl (fun t s => insertIfAbsent t s.id s.return_names) tbl

/-- A parameter kind the validator accepts: only named, bindable kinds. -/
def KindOk (p : Param) : Prop :=
  p.kind = ParamKind.keywordOnly ∨ p.kind = ParamKind.positionalOrKeyword

/-- The per-step parameter/argument checks of `Workflow.validate`, as a
predicate: every parameter is keyword-bindable and bound in `arguments`,
and every argument key is a declared parameter name. -/
def ParamsOk (s : Step) : Prop :=
  (∀ p ∈ s.method.params, KindOk p ∧ p.name ∈ argKeys s)
  ∧ ∀ a ∈ s.arguments, a.1 ∈ s.method.params.map Param.name

/-- Every `StepOutput` among a step's arguments resolves in the table. -/
def RefsOk (tbl : RetNamesTable) (s : Step) : Prop :=
  ∀ n S R, (n, ArgValue.stepOutput S R) ∈ s.arguments →
    ∃ rets, tbl.lookup S = some rets ∧ R ∈ rets

/-- The validation errors raised by the `StepOutput` reference checks. -/
def IsRefErr : VErr → Prop
  | .unknownStepId _ _ _ _ => True
  | .unknownReturnName _ _ _ _ => True
  | _ => False

theorem checkParams_ok_sound (s : Step) :
    ∀ (ps : List Param) (acc pn : List String),
      checkParams s ps acc = .ok pn →
      (∀ p ∈ ps, KindOk p ∧ p.name ∈ argKeys s) ∧ pn = acc ++ ps.map Param.name := by
  intro ps
  induction ps with
  | nil =>
      intro acc pn h
      simp only [checkParams, Except.ok.injEq] at h
      simp [h]
  | cons p rest ih =>
      intro acc pn h
      simp only [checkParams] at h
      split at h
      · cases h
      · rename_i hkind
        split at h
        · rename_i hmem
          have hk : KindOk p := by
            rcases Decidable.em (p.kind = ParamKind.keywordOnly) with hh | hh
            · exact Or.inl hh
            · rcases Decidable.em (p.kind = ParamKind.positionalOrKeyword) with hh2 | hh2
              · exact Or.inr hh2
              · exact absurd ⟨hh, hh2⟩ hkind
          obtain ⟨h1, h2⟩ := ih (acc ++ [p.name]) pn h
          refine ⟨?_, ?_⟩
          · intro q hq
            rcases List.mem_cons.mp hq with hq | hq
            · subst hq; exact ⟨hk, hmem⟩
            · exact h1 q hq
          · simp [h2]
        · cases h

theorem checkParams_complete (s : Step) :
    ∀ (ps : List Param) (acc : List String),
      (∀ p ∈ ps, KindOk p ∧ p.name ∈ argKeys s) →
      checkParams s ps acc = .ok (acc ++ ps.map Param.name) := by
  intro ps
  induction ps with
  | nil => intro acc _; simp [checkParams]
  | cons p rest ih =>
      intro acc h
      have hp := h p (List.mem_cons_self _ _)
      have hkind : ¬(p.kind ≠ ParamKind.keywordOnly ∧ p.kind ≠ ParamKind.positionalOrKeyword) := by
        rcases hp.1 with hh | hh
        · intro hc; exact hc.1 hh
        · intro hc; exact hc.2 hh
      have := ih (acc ++ [p.name]) (fun q hq => h q (List.mem_cons_of_mem _ hq))
      simp only [checkParams, if_neg hkind, if_pos hp.2, this]
      simp

theorem checkArgs_ok_refs (s : Step) (tbl : RetNamesTable) (pn : List String) :
    ∀ (args : List (String × ArgValue)),
      checkArgs s tbl pn args = .ok () →
      ∀ n S R, (n, ArgValue.stepOutput S R) ∈ args →
        ∃ rets, tbl.lookup S = some rets ∧ R ∈ rets := by
  intro args
  induction args with
  | nil => intro _ n S R h; cases h
  | cons a rest ih =>
      intro h n S R hmem
      obtain ⟨m, v⟩ := a
      have hmem2 := List.mem_cons.mp hmem
      clear hmem
      rcases hmem2 with heq | htl
      · have hn : n = m := congrArg Prod.fst heq
        have hv : ArgValue.stepOutput S R = v := congrArg Prod.snd heq
        subst hn
        subst hv
        simp only [checkArgs] at h
        split at h
        · simp at h
        · rename_i rets hlook
          split at h
          · rename_i hr
            exact ⟨rets, hlook, hr⟩
          · simp at h
      · cases v with
        | stepOutput sid rn =>
            simp only [checkArgs] at h
            split at h
            · simp at h
            · split at h
              · split at h
                · exact ih h n S R htl
                · simp at h
              · simp at h
        | lit w =>
            simp only [checkArgs] at h
            split at h
            · exact ih h n S R htl
            · simp at h
        | workDirPath w =>
            simp only [checkArgs] at h
            split at h
            · exact ih h n S R htl
            · simp at h

theorem checkArgs_ok_keys (s : Step) (tbl : RetNamesTable) (pn : List String) :
    ∀ (args : List (String × ArgValue)),
      checkArgs s tbl pn args = .ok () → ∀ a ∈ args, a.1 ∈ pn := by
  intro args
  induction args with
  | nil => intro _ a h; cases h
  | cons a rest ih =>
      intro h b hb
      obtain ⟨m, v⟩ := a
      have hb2 := List.mem_cons.mp hb
      clear hb
      rcases hb2 with hbeq | hbtl
      · subst hbeq
        cases v with
        | stepOutput sid rn =>
            simp only [checkArgs] at h
            split at h
            · simp at h
            · split at h
              · split at h
                · assumption
                · simp at h
              · simp at h
        | lit w =>
            simp only [checkArgs] at h
            split at h
            · assumption
            · simp at h
        | workDirPath w =>
            simp only [checkArgs] at h
            split at h
            · assumption
            · simp at h
      · cases v with
        | stepOutput sid rn =>
            simp only [checkArgs] at h
            split at h
            · simp at h
            · split at h
              · split at h
                · exact ih h b hbtl
                · simp at h
              · simp at h
        | lit w =>
            simp only [checkArgs] at h
            split at h
            · exact ih h b hbtl
            · simp at h
        | workDirPath w =>
            simp only [checkArgs] at h
            split at h
            · exact ih h b hbtl
            · simp at h

theorem checkArgs_complete (s : Step) (tbl : RetNamesTable) (pn : List String) :
    ∀ (args : List (String × ArgValue)),
      (∀ a ∈ args, a.1 ∈ pn) →
      (∀ n S R, (n, ArgValue.stepOutput S R) ∈ args →
        ∃ rets, tbl.lookup S = some rets ∧ R ∈ rets) →
      checkArgs s tbl pn args = .ok () := by
  intro args
  induction args with
  | nil => intro _ _; rfl
  | cons a rest ih =>
      intro hkeys hrefs
      obtain ⟨m, v⟩ := a
      have hm : m ∈ pn := hkeys (m, v) (List.mem_cons_self _ _)
      have htail := ih (fun b hb => hkeys b (List.mem_cons_of_mem _ hb))
        (fun n S R hb => hrefs n S R (List.mem_cons_of_mem _ hb))
      cases v with
      | stepOutput sid rn =>
          obtain ⟨rets, hlook, hmemr⟩ :=
            hrefs m sid rn (List.mem_cons_self _ _)
          simp only [checkArgs, hlook, if_pos hmemr, if_pos hm]
          exact htail
      | lit w => simp only [checkArgs, if_pos hm]; exact htail
      | workDirPath w => simp only [checkArgs, if_pos hm]; exact htail

theorem checkArgs_classify (s : Step) (tbl : RetNamesTable) (pn : List String) :
    ∀ (args : List (String × ArgValue)),
      (∀ a ∈ args, a.1 ∈ pn) →
      checkArgs s tbl pn args = .ok ()
      ∨ ∃ e, checkArgs s tbl pn args = .error e ∧ IsRefErr e := by
  intro args
  induction args with
  | nil => intro _; exact Or.inl rfl
  | cons a rest ih =>
      intro hkeys
      obtain ⟨m, v⟩ := a
      have hm : m ∈ pn := hkeys (m, v) (List.mem_cons_self _ _)
      have htail := ih (fun b hb => hkeys b (List.mem_cons_of_mem _ hb))
      cases v with
      | stepOutput sid rn =>
          cases hlook : tbl.lookup sid with
          | none =>
              refine Or.inr ⟨VErr.unknownStepId s.id m sid rn, ?_, trivial⟩
              simp only [checkArgs, hlook]
          | some rets =>
              by_cases hr : rn ∈ rets
              · rcases htail with h | ⟨e, he, hre⟩
                · exact Or.inl (by simp only [checkArgs, hlook, if_pos hr, if_pos hm]; exact h)
                · exact Or.inr ⟨e, by simp only [checkArgs, hlook, if_pos hr, if_pos hm]; exact he, hre⟩
              · refine Or.inr ⟨VErr.unknownReturnName s.id m sid rn, ?_, trivial⟩
                simp only [checkArgs, hlook, if_neg hr]
      | lit w =>
          rcases htail with h | ⟨e, he, hre⟩
          · exact Or.inl (by simp only [checkArgs, if_pos hm]; exact h)
          · exact Or.inr ⟨e, by simp only [checkArgs, if_pos hm]; exact he, hre⟩
      | workDirPath w =>
          rcases htail with h | ⟨e, he, hre⟩
          · exact Or.inl (by simp only [checkArgs, if_pos hm]; exact h)
          · exact Or.inr ⟨e, by simp only [checkArgs, if_pos hm]; exact he, hre⟩

theorem lookup_append_of_none {β : Type} (k : String) (l2 : List (String × β)) :
    ∀ (l1 : List (String × β)), l1.lookup k = none →
      (l1 ++ l2).lookup k = l2.lookup k := by
  intro l1
  induction l1 with
  | nil => intro _; rfl
  | cons p rest ih =>
      intro h
      obtain ⟨a, b⟩ := p
      by_cases hk : k = a
      · simp [List.lookup, hk] at h
      · simp only [List.lookup, List.cons_append] at h ⊢
        rw [beq_false_of_ne hk] at h ⊢
        exact ih h

theorem lookup_append_of_some {β : Type} (k : String) (v : β) (l2 : List (String × β)) :
    ∀ (l1 : List (String × β)), l1.lookup k = some v →
      (l1 ++ l2).lookup k = some v := by
  intro l1
  induction l1 with
  | nil => intro h; cases h
  | cons p rest ih =>
      intro h
      obtain ⟨a, b⟩ := p
      by_cases hk : k = a
      · simp [List.lookup, hk] at h ⊢
        exact h
      · simp only [List.lookup, List.cons_append] at h ⊢
        rw [beq_false_of_ne hk] at h ⊢
        exact ih h

theorem lookup_insertIfAbsent_self (tbl : RetNamesTable) (k : String) (v : List String) :
    (insertIfAbsent tbl k v).lookup k = some ((tbl.lookup k).getD v) := by
  unfold insertIfAbsent
  cases h : tbl.lookup k with
  | some r => simp [h]
  | none =>
      have := lookup_append_of_none k [(k, v)] tbl h
      simp [h, this, List.lookup]

theorem lookup_insertIfAbsent_ne (tbl : RetNamesTable) (k' k : String) (v : List String)
    (h : k ≠ k') : (insertIfAbsent tbl k' v).lookup k = tbl.lookup k := by
  unfold insertIfAbsent
  cases hl : tbl.lookup k' with
  | some r => rfl
  | none =>
      cases hk : tbl.lookup k with
      | some r => exact lookup_append_of_some k r [(k', v)] tbl hk
      | none =>
          rw [lookup_append_of_none k [(k', v)] tbl hk]
          simp [List.lookup, beq_false_of_ne h]

theorem buildTable_cons (tbl : RetNamesTable) (s : Step) (rest : List Step) :
    buildTable tbl (s :: rest) = buildTable (insertIfAbsent tbl s.id s.return_names) rest :=
  rfl

/-- Lookup in the accumulated validation table: for an id absent from the
seed table, the result is the `return_names` of the first step in the list
carrying that id. -/
theorem buildTable_lookup (S : String) :
    ∀ (steps : List Step) (tbl : RetNamesTable), tbl.lookup S = none →
      (buildTable tbl steps).lookup S =
        (steps.find? (fun s => s.id == S)).map Step.return_names := by
  intro steps
  induction steps with
  | nil => intro tbl h; simpa [buildTable] using h
  | cons s rest ih =>
      intro tbl h
      rw [buildTable_cons]
      by_cases hs : s.id = S
      · subst hs
        have hself : (insertIfAbsent tbl s.id s.return_names).lookup s.id =
            some s.return_names := by
          rw [lookup_insertIfAbsent_self, h]
          rfl
        have : ∀ (l : List Step) (t : RetNamesTable) (r : List String),
            t.lookup s.id = some r → (buildTable t l).lookup s.id = some r := by
          intro l
          induction l with
          | nil => intro t r ht; simpa [buildTable] using ht
          | cons q qrest ihq =>
              intro t r ht
              rw [buildTable_cons]
              by_cases hq : s.id = q.id
              · refine ihq _ r ?_
                rw [← hq, lookup_insertIfAbsent_self]
                · rw [ht]; rfl
              · exact ihq _ r (by rw [lookup_insertIfAbsent_ne _ _ _ _ hq]; exact ht)
        rw [this rest _ s.return_names hself]
        simp [List.find?]
  -- hs : s.id ≠ S
      · have hne : (insertIfAbsent tbl s.id s.return_names).lookup S = none := by
          rw [lookup_insertIfAbsent_ne _ _ _ _ (fun hc => hs hc.symm)]
          exact h
        rw [ih _ hne]
        have : (s.id == S) = false := beq_false_of_ne hs
        simp [List.find?, this]

/-- Soundness of the validation loop for parameter checks: a loop that
returns `ok` ran both per-step checks on every step. -/
theorem validateLoop_ok_params :
    ∀ (steps : List Step) (tbl : RetNamesTable),
      validateLoop tbl steps = .ok () → ∀ s ∈ steps, ParamsOk s := by
  intro steps
  induction steps with
  | nil => intro tbl _ s h; cases h
  | cons q rest ih =>
      intro tbl h s hs
      simp only [validateLoop] at h
      split at h
      · simp at h
      · rename_i pn hcp
        split at h
        · simp at h
        · rename_i u hca
          rcases List.mem_cons.mp hs with hs | hs
          · subst hs
            obtain ⟨h1, h2⟩ := checkParams_ok_sound s s.method.params [] pn hcp
            refine ⟨h1, ?_⟩
            intro a ha
            have := checkArgs_ok_keys s tbl pn s.arguments hca a ha
            rw [h2] at this
            simpa using this
          · exact ih _ h s hs

/-- Soundness of the validation loop for `StepOutput` references: a loop
that returns `ok` resolved every reference of the `i`-th step in the table
accumulated over the steps before it. -/
theorem validateLoop_ok_refs :
    ∀ (steps : List Step) (tbl : RetNamesTable),
      validateLoop tbl steps = .ok () →
      ∀ i (hi : i < steps.length) (n S R : String),
        (n, ArgValue.stepOutput S R) ∈ (steps.get ⟨i, hi⟩).arguments →
        ∃ rets, (buildTable tbl (steps.take i)).lookup S = some rets ∧ R ∈ rets := by
  intro steps
  induction steps with
  | nil =>
      intro tbl _ i hi
      exact absurd hi (by simp)
  | cons q rest ih =>
      intro tbl h i hi n S R hmem
      simp only [validateLoop] at h
      split at h
      · simp at h
      · rename_i pn hcp
        split at h
        · simp at h
        · rename_i u hca
          cases i with
          | zero =>
              simp only [List.get] at hmem
              exact checkArgs_ok_refs q tbl pn q.arguments hca n S R hmem
          | succ j =>
              have hj : j < rest.length := Nat.lt_of_succ_lt_succ hi
              have := ih _ h j hj n S R (by simpa using hmem)
              simpa [buildTable_cons] using this

/-- Completeness of the validation loop: if every step passes its
parameter checks and resolves its references in the accumulated table, the
loop returns `ok`. -/
theorem validateLoop_complete :
    ∀ (steps : List Step) (tbl : RetNamesTable),
      (∀ i (hi : i < steps.length),
        ParamsOk (steps.get ⟨i, hi⟩)
        ∧ RefsOk (buildTable tbl (steps.take i)) (steps.get ⟨i, hi⟩)) →
      validateLoop tbl steps = .ok () := by
  intro steps
  induction steps with
  | nil => intro tbl _; rfl
  | cons q rest ih =>
      intro tbl h
      obtain ⟨⟨hp, hk⟩, hr⟩ := h 0 (by simp)
      have hcp := checkParams_complete q q.method.params [] hp
      have hca := checkArgs_complete q tbl ([] ++ q.method.params.map Param.name)
        q.arguments (by simpa using hk) (by simpa [RefsOk, buildTable] using hr)
      simp only [validateLoop, hcp, hca]
      refine ih _ ?_
      intro i hi
      have := h (i + 1) (Nat.succ_lt_succ hi)
      simpa [buildTable_cons] using this

/-- If every step passes the per-step parameter checks, the loop either
succeeds or fails with one of the two `StepOutput` reference errors. -/
theorem validateLoop_classify :
    ∀ (steps : List Step) (tbl : RetNamesTable),
      (∀ s ∈ steps, ParamsOk s) →
      validateLoop tbl steps = .ok ()
      ∨ ∃ e, validateLoop tbl steps = .error e ∧ IsRefErr e := by
  intro steps
  induction steps with
  | nil => intro tbl _; exact Or.inl rfl
  | cons q rest ih =>
      intro tbl h
      obtain ⟨hp, hk⟩ := h q (List.mem_cons_self _ _)
      have hcp := checkParams_complete q q.method.params [] hp
      rcases checkArgs_classify q tbl ([] ++ q.method.params.map Param.name)
          q.arguments (by simpa using hk) with hca | ⟨e, hca, hre⟩
      · rcases ih (insertIfAbsent tbl q.id q.return_names)
            (fun s hs => h s (List.mem_cons_of_mem _ hs)) with hrest | ⟨e, hrest, hre⟩
        · exact Or.inl (by simp only [validateLoop, hcp, hca]; exact hrest)
        · exact Or.inr ⟨e, by simp only [validateLoop, hcp, hca]; exact hrest, hre⟩
      · exact Or.inr ⟨e, by simp only [validateLoop, hcp, hca], hre⟩

/-- C4: a `StepOutput(step_id := S, return_name := R)` argument of the
`i`-th step whose `S` is not the id of an earlier step (this covers
forward references and self-references, since only strictly earlier steps
are accumulated), or whose `R` is not among the `return_names` of the
first earlier step with id `S`, makes `Workflow` construction fail with a
validation error before any step executes (`validate` runs at
construction and no run happens on an exception). -/
theorem stepOutput_reference_validation (wf : Workflow) (i : Nat)
    (hi : i < wf.steps.length) (n S R : String)
    (hmem : (n, ArgValue.stepOutput S R) ∈ (wf.steps.get ⟨i, hi⟩).arguments)
    (hbad : ((wf.steps.take i).find? (fun s => s.id == S)) = none
      ∨ ∃ s, ((wf.steps.take i).find? (fun s => s.id == S)) = some s
          ∧ R ∉ s.return_names) :
    ∃ e, wf.validate = Except.error e := by
  unfold Workflow.validate
  by_cases hempty : wf.steps.isEmpty
  · exact ⟨.noSteps, by simp [hempty]⟩
  · rw [if_neg hempty]
    cases hv : validateLoop [] wf.steps with
    | error e => exact ⟨e, rfl⟩
    | ok u =>
        cases u
        obtain ⟨rets, hlook, hR⟩ := validateLoop_ok_refs wf.steps [] hv i hi n S R hmem
        rw [buildTable_lookup S (wf.steps.take i) [] rfl] at hlook
        rcases hbad with hb | ⟨s, hb, hRn⟩
        · rw [hb] at hlook; cases hlook
        · rw [hb] at hlook
          simp only [Option.map] at hlook
          have : s.return_names = rets := by injection hlook
          subst this
          exact absurd hR hRn

/-- An operation with no parameters returning `0`, for concrete workflows. -/
def opNullary : Operation := ⟨"op0", [], fun _ => .ok (.vnat 0)⟩

/-- Concrete workflow whose only step references a step id that never
occurs: `StepOutput("ghost", "r")` bound to parameter `x`. -/
def exC4 : Workflow :=
  ⟨"w", "1", "wf", "",
    [⟨"a", "A", ⟨"m", [⟨"x", ParamKind.positionalOrKeyword⟩], fun _ => .ok (.vnat 0)⟩,
      [("x", ArgValue.stepOutput "ghost" "r")], [], []⟩]⟩

/-- Witness for C4: the concrete forward reference fails validation. -/
theorem stepOutput_reference_validation_witness :
    ∃ e, exC4.validate = Except.error e :=
  stepOutput_reference_validation exC4 0 (by decide) "x" "ghost" "r"
    (List.Mem.head _) (Or.inl rfl)

/-- The negation of the per-step parameter checks: some declared parameter
is positional-only or variadic, or lacks a matching key in `arguments`, or
some `arguments` key matches no declared parameter. -/
def BadParams (s : Step) : Prop :=
  (∃ p ∈ s.method.params, ¬KindOk p)
  ∨ (∃ p ∈ s.method.params, p.name ∉ argKeys s)
  ∨ (∃ a ∈ s.arguments, a.1 ∉ s.method.params.map Param.name)

/-- C5: construction fails whenever some step's operation declares a
parameter with no matching key in `arguments`, or some `arguments` key
matches no declared parameter, or some parameter is positional-only or
variadic; and when no step has such a mismatch these checks pass for every
step — validation can then only succeed or fail with the empty-workflow
error or a `StepOutput` reference error. -/
theorem parameter_binding_validation :
    (∀ wf : Workflow, (∃ s ∈ wf.steps, BadParams s) → ∃ e, wf.validate = Except.error e)
    ∧ (∀ wf : Workflow, (∀ s ∈ wf.steps, ParamsOk s) →
        wf.validate = Except.ok ()
        ∨ ∃ e, wf.validate = Except.error e ∧ (e = VErr.noSteps ∨ IsRefErr e)) := by
  constructor
  · intro wf ⟨s, hs, hbad⟩
    unfold Workflow.validate
    by_cases hempty : wf.steps.isEmpty
    · exact ⟨.noSteps, by simp [hempty]⟩
    · rw [if_neg hempty]
      cases hv : validateLoop [] wf.steps with
      | error e => exact ⟨e, rfl⟩
      | ok u =>
          cases u
          have hok := validateLoop_ok_params wf.steps [] hv s hs
          rcases hbad with ⟨p, hp, hk⟩ | ⟨p, hp, hk⟩ | ⟨a, ha, hk⟩
          · exact absurd (hok.1 p hp).1 hk
          · exact absurd (hok.1 p hp).2 hk
          · exact absurd (hok.2 a ha) hk
  · intro wf h
    unfold Workflow.validate
    by_cases hempty : wf.steps.isEmpty
    · exact Or.inr ⟨.noSteps, by simp [hempty], Or.inl rfl⟩
    · rw [if_neg hempty]
      rcases validateLoop_classify wf.steps [] h with hok | ⟨e, he, hre⟩
      · exact Or.inl hok
      · exact Or.inr ⟨e, he, Or.inr hre⟩

/-- Concrete workflow whose only step has a stray argument `y` that no
declared parameter matches. -/
def exC5bad : Workflow :=
  ⟨"w", "1", "wf", "",
    [⟨"a", "A", opNullary, [("y", ArgValue.lit (.vnat 1))], [], []⟩]⟩

/-- Concrete one-step workflow with no parameters and no arguments. -/
def exC5good : Workflow :=
  ⟨"w", "1", "wf", "", [⟨"a", "A", opNullary, [], [], []⟩]⟩

/-- Witness for C5: the stray binding fails, and for a workflow whose
steps all pass the per-step checks validation is `ok` or a reference
error. -/
theorem parameter_binding_validation_witness :
    (∃ e, exC5bad.validate = Except.error e)
    ∧ (exC5good.validate = Except.ok ()
        ∨ ∃ e, exC5good.validate = Except.error e ∧ (e = VErr.noSteps ∨ IsRefErr e)) := by
  constructor
  · refine parameter_binding_validation.1 exC5bad ?_
    refine ⟨_, List.Mem.head _, Or.inr (Or.inr ⟨("y", ArgValue.lit (.vnat 1)), List.Mem.head _, ?_⟩)⟩
    simp [opNullary]
  · refine parameter_binding_validation.2 exC5good ?_
    intro s hs
    have hs2 := List.mem_singleton.mp hs
    subst hs2
    exact ⟨fun p hp => absurd hp (by simp [opNullary]), fun a ha => absurd ha (by simp)⟩

/-- Python dictionary assignment `d[k] = v` on an association list:
replace the value at the first occurrence of the key, else append. -/
def insertReplace {α : Type} (d : List (String × α)) (k : String) (v : α) :
    List (String × α) :=
  match d with
  | [] => [(k, v)]
  | (a, b) :: rest => if a = k then (k, v) :: rest else (a, b) :: insertReplace rest k v

/-- The named return values stored for one step (`step_returns[id]`). -/
abbrev RetDict := List (String × Val)

/-- The runner's `step_returns` table, keyed by step id. -/
abbrev RetTable := List (String × RetDict)

/-- Resolution of one argument value by `run_workflow`: a literal passes
through, a `StepOutput` is the lookup
`step_returns[value.step_id][value.return_name]` (each missing key a
`KeyError`), a `WorkDirPath` is evaluated against the per-run root with
its filesystem effect. -/
def resolveArg (root : List String) (rets : RetTable) (fs : FS) :
    ArgValue → Except PyErr (Val × FS)
  | .lit v => .ok (v, fs)
  | .stepOutput sid rn =>
    match rets.lookup sid with
    | none => .error (.keyError sid)
    | some d =>
      match d.lookup rn with
      | none => .error (.keyError rn)
      | some v => .ok (v, fs)
  | .workDirPath w =>
    match w.eval root fs with
    | (p, fs2) => .ok (.vpath p, fs2)

/-- The argument resolution loop over `{**step.arguments}`, in dictionary
order, threading the filesystem (directories created by an earlier
`WorkDirPath` persist even when a later argument fails to resolve). -/
def resolveArgs (root : List String) (rets : RetTable) :
    List (String × ArgValue) → FS → FS × Except PyErr (List (String × Val))
  | [], fs => (fs, .ok [])
  | (n, v) :: rest, fs =>
    match resolveArg root rets fs v with
    | .error e => (fs, .error e)
    | .ok (rv, fs2) =>
      match resolveArgs root rets rest fs2 with
      | (fs3, .error e) => (fs3, .error e)
      | (fs3, .ok rs) => (fs3, .ok ((n, rv) :: rs))

/-- `return_values if len(step.return_names) > 1 else (return_values,)`
followed by iteration in `zip`: with more than one declared return name
the result must be iterable — in the model a `vtup`, the embedding of the
tuple-like sequences the in-repo operations return — else `zip` raises
`TypeError`; with one (or zero) names the raw result is wrapped as a
one-element sequence. -/
def destructure (names : List String) (result : Val) : Except PyErr (List Val) :=
  if 1 < names.length then
    match result with
    | .vtup vs => .ok vs
    | _ => .error (.typeError "zip argument does not support iteration")
  else .ok [result]

/-- `for name, value in zip(...)` filling a fresh dictionary: `zip`
truncates to the shorter of the two lists. -/
def dictOfPairs (ps : List (String × Val)) : RetDict :=
  ps.foldl (fun d p => insertReplace d p.1 p.2) []

/-- Result of executing one step: the returns table and filesystem after
the step, and the exception if it raised.  On a resolution or invocation
error nothing is stored; on the `zip` `TypeError` the source has already
executed `step_returns[step.id] = {}`. -/
structure StepOut where
  rets : RetTable
  fs : FS
  err : Option PyErr

/-- One iteration of the runner's step loop. -/
def execStep (root : List String) (rets : RetTable) (fs : FS) (s : Step) : StepOut :=
  match resolveArgs root rets s.arguments fs with
  | (fs2, .error e) => ⟨rets, fs2, some e⟩
  | (fs2, .ok args) =>
    match s.method.run args with
    | .error e => ⟨rets, fs2, some e⟩
    | .ok result =>
      match destructure s.return_names result with
      | .error e => ⟨insertReplace rets s.id [], fs2, some e⟩
      | .ok vals =>
        ⟨insertReplace rets s.id (dictOfPairs (s.return_names.zip vals)), fs2, none⟩

/-- State after the runner's `try` block: the stage of every step (in step
order), the returns table, the filesystem, and the caught exception if
any. -/
structure LoopOut where
  stages : List Nat
  rets : RetTable
  fs : FS
  err : Option PyErr

/-- The runner's step loop over the steps paired with their current stage
(the mutable `step.stage` of the shared `Step` objects).  `logger_context`
sets the stage to 1 before the body and to 2 only on success, so a failing
step keeps stage 1 and the steps never reached keep their incoming
stages. -/
def runLoop (root : List String) :
    List (Step × Nat) → RetTable → FS → LoopOut
  | [], rets, fs => ⟨[], rets, fs, none⟩
  | (s, _) :: rest, rets, fs =>
    match execStep root rets fs s with
    | ⟨rets2, fs2, none⟩ =>
      let out := runLoop root rest rets2 fs2
      ⟨2 :: out.stages, out.rets, out.fs, out.err⟩
    | ⟨rets2, fs2, some e⟩ =>
      ⟨1 :: rest.map Prod.snd, rets2, fs2, some e⟩

/-- One entry of the feedback document's `steps` list. -/
structure StepFeedback where
  id : String
  name : String
  stage : Nat
  returns : RetDict

/-- The feedback document's `outputs` mapping, keyed by step id. -/
abbrev OutTable := List (String × RetDict)

/-- The inner output-collection loop of the `finally` block:
`feedback["outputs"][step.id][output_name] = step_returns[step.id][output_name]`,
raising `KeyError` for an output name the step never stored. -/
def collectOutputs (d : RetDict) : List String → RetDict → Except PyErr RetDict
  | [], acc => .ok acc
  | o :: rest, acc =>
    match d.lookup o with
    | none => .error (.keyError o)
    | some v => collectOutputs d rest (insertReplace acc o v)

/-- The `finally` block's feedback-assembly loop: every step contributes
id/name/stage; a step at stage 2 additionally contributes
`step_returns[step.id]` (a `KeyError` — propagating out of the runner — if
the table has no such id) and its declared outputs. -/
def assembleLoop (rets : RetTable) :
    List (Step × Nat) → List StepFeedback → OutTable →
    Except PyErr (List StepFeedback × OutTable)
  | [], accSteps, accOuts => .ok (accSteps, accOuts)
  | (s, st) :: rest, accSteps, accOuts =>
    if st = 2 then
      match rets.lookup s.id with
      | none => .error (.keyError s.id)
      | some d =>
        match collectOutputs d s.outputs [] with
        | .error e => .error e
        | .ok outs =>
          assembleLoop rets rest (accSteps ++ [⟨s.id, s.name, st, d⟩])
            (insertReplace accOuts s.id outs)
    else
      assembleLoop rets rest (accSteps ++ [⟨s.id, s.name, st, []⟩]) accOuts

/-- The feedback document. -/
structure Feedback where
  feedback_version : String
  workflow_version : String
  workflow_id : String
  workflow_name : String
  error : Option String
  error_stack : Option (List String)
  steps : List StepFeedback
  outputs : OutTable

/-- `type(obj).__qualname__` for the embedded values. -/
def Val.typeName : Val → String
  | .vnat _ => "int"
  | .vstr _ => "str"
  | .vpath _ => "PosixPath"
  | .vtup _ => "tuple"

mutual
/-- `str(obj)` for embedded values (total here; the source additionally
guards against a raising `__str__` with a `<non-representable>`
fallback, which no embedded value triggers). -/
def strRepr : Val → String
  | .vnat n => toString n
  | .vstr s => s
  | .vpath p => String.intercalate "/" p
  | .vtup vs => "(" ++ strReprList vs ++ ")"

def strReprList : List Val → String
  | [] => ""
  | [v] => strRepr v
  | v :: rest => strRepr v ++ ", " ++ strReprList rest
end

/-- `json_default` of `docker-qgis/utils.py`: the placeholder string used
for a value the JSON encoder cannot serialize — its type name plus its
string representation. -/
def json_default (v : Val) : String :=
  "<non-serializable: " ++ v.typeName ++ " " ++ strRepr v ++ ">"

mutual
/-- JSON serialization of a value as `json.dump(..., default=json_default)`
produces it: numbers and strings directly, tuple-like sequences as arrays,
and the non-serializable `vpath` through the `json_default` placeholder
(string escaping is not modelled). -/
def serializeVal : Val → String
  | .vnat n => toString n
  | .vstr s => "\x22" ++ s ++ "\x22"
  | .vpath p => "\x22" ++ json_default (.vpath p) ++ "\x22"
  | .vtup vs => "[" ++ serializeValList vs ++ "]"

def serializeValList : List Val → String
  | [] => ""
  | [v] => serializeVal v
  | v :: rest => serializeVal v ++ ", " ++ serializeValList rest
end

/-- Insertion into a key-sorted association list (for `sort_keys=True`). -/
def insertByKey {α : Type} (p : String × α) :
    List (String × α) → List (String × α)
  | [] => [p]
  | q :: rest => if p.1 ≤ q.1 then p :: q :: rest else q :: insertByKey p rest

/-- Sort an association list by key, as `json.dump(..., sort_keys=True)`. -/
def sortByKey {α : Type} (l : List (String × α)) : List (String × α) :=
  l.foldr insertByKey []

/-- Serialize a string-valued dictionary with sorted keys. -/
def serializeDict (d : RetDict) : String :=
  "\x7b" ++ String.intercalate ", "
    ((sortByKey d).map (fun p => "\x22" ++ p.1 ++ "\x22: " ++ serializeVal p.2)) ++ "\x7d"

/-- Serialize one `steps` entry (keys in sorted order). -/
def serializeStepFeedback (sf : StepFeedback) : String :=
  "\x7b\x22id\x22: \x22" ++ sf.id ++ "\x22, \x22name\x22: \x22" ++ sf.name
    ++ "\x22, \x22returns\x22: " ++ serializeDict sf.returns
    ++ ", \x22stage\x22: " ++ toString sf.stage ++ "\x7d"

/-- Serialize a list of strings as a JSON array. -/
def serializeStrList (l : List String) : String :=
  "[" ++ String.intercalate ", " (l.map (fun s => "\x22" ++ s ++ "\x22")) ++ "]"

/-- The one serialization of the feedback document
(`json.dump(feedback, ..., sort_keys=True, default=json_default)`): total,
never failing, with the `json_default` placeholder standing in for
non-serializable values. -/
def serializeFeedback (fb : Feedback) : String :=
  "\x7b"
  ++ (match fb.error, fb.error_stack with
      | some e, some st =>
          "\x22error\x22: \x22" ++ e ++ "\x22, \x22error_stack\x22: "
            ++ serializeStrList st ++ ", "
      | some e, none => "\x22error\x22: \x22" ++ e ++ "\x22, "
      | none, some st => "\x22error_stack\x22: " ++ serializeStrList st ++ ", "
      | none, none => "")
  ++ "\x22feedback_version\x22: \x22" ++ fb.feedback_version
  ++ "\x22, \x22outputs\x22: \x7b"
  ++ String.intercalate ", " ((sortByKey fb.outputs).map
      (fun p => "\x22" ++ p.1 ++ "\x22: " ++ serializeDict p.2))
  ++ "\x7d, \x22steps\x22: ["
  ++ String.intercalate ", " (fb.steps.map serializeStepFeedback)
  ++ "], \x22workflow_id\x22: \x22" ++ fb.workflow_id
  ++ "\x22, \x22workflow_name\x22: \x22" ++ fb.workflow_name
  ++ "\x22, \x22workflow_version\x22: \x22" ++ fb.workflow_version ++ "\x22\x7d"

/-- The feedback sink: nothing, `sys.stdout`, `sys.stderr`, some other
writable stream (an `IO` object that is neither standard stream), or a
filesystem path. -/
inductive Sink where
  | none
  | stdoutStream
  | stderrStream
  | otherStream
  | pathSink (p : List String)

/-- The documents written to the sink by the tail of the `finally` block:
`json.dump` once for `sys.stdout`/`sys.stderr` (the membership test
`feedback_filename in [sys.stderr, sys.stdout]`), once for a `Path`, and
— falling through both branches — none for no sink or any other stream. -/
def writesFor (sink : Sink) (doc : String) : List String :=
  match sink with
  | .stdoutStream => [doc]
  | .stderrStream => [doc]
  | .pathSink _ => [doc]
  | .none => []
  | .otherStream => []

/-- What `run_workflow` produces when it returns: the feedback document,
the final stages of the shared `Step` objects, the filesystem, and the
serialized documents written to the sink. -/
structure RunResult where
  feedback : Feedback
  stages : List Nat
  fs : FS
  writes : List String

/-- `run_workflow(workflow, feedback_filename)`: create the fresh
temporary root (`tempfile.mkdtemp`), run the step loop, then the
`finally` block: assemble the feedback (an exception there — a `KeyError`
on a stale stage or an unknown output name — propagates and replaces any
pending return), write the document to the sink, and return it.
`stages0` is the incoming `stage` of each `Step` object, in order: 0 for
freshly constructed steps, possibly other values when the same `Workflow`
object was run before. -/
def run_workflow (wf : Workflow) (stages0 : List Nat) (sink : Sink)
    (root : List String) (fs0 : FS) : Except PyErr RunResult :=
  let out := runLoop root (wf.steps.zip stages0) [] (mkdirParents fs0 root)
  match assembleLoop out.rets (wf.steps.zip out.stages) [] [] with
  | .error e => .error e
  | .ok (stepFbs, outs) =>
    let fb : Feedback :=
      ⟨"2.0", wf.version, wf.id, wf.name, out.err.map PyErr.toMsg,
        out.err.map formatTb, stepFbs, outs⟩
    .ok ⟨fb, out.stages, out.fs, writesFor sink (serializeFeedback fb)⟩

theorem lookup_insertReplace_self {α : Type} (k : String) (v : α) :
    ∀ (d : List (String × α)), (insertReplace d k v).lookup k = some v := by
  intro d
  induction d with
  | nil => simp [insertReplace, List.lookup]
  | cons p rest ih =>
      obtain ⟨a, b⟩ := p
      by_cases hk : a = k
      · simp [insertReplace, hk, List.lookup]
      · have hke : (k == a) = false := beq_false_of_ne (fun hc => hk hc.symm)
        simp only [insertReplace, if_neg hk, List.lookup, hke]
        exact ih

theorem lookup_insertReplace_ne {α : Type} (k a : String) (v : α) (h : k ≠ a) :
    ∀ (d : List (String × α)), (insertReplace d a v).lookup k = d.lookup k := by
  intro d
  induction d with
  | nil => simp [insertReplace, List.lookup, beq_false_of_ne h]
  | cons p rest ih =>
      obtain ⟨c, b⟩ := p
      by_cases hc : c = a
      · subst hc
        simp only [insertReplace, if_pos rfl, List.lookup, beq_false_of_ne h]
      · simp only [insertReplace, if_neg hc, List.lookup]
        cases hkc : (k == c) with
        | true => rfl
        | false => exact ih

theorem execStep_lookup_ne (root : List String) (rets : RetTable) (fs : FS)
    (s : Step) (k : String) (hk : k ≠ s.id) :
    ((execStep root rets fs s).rets).lookup k = rets.lookup k := by
  unfold execStep
  split
  · rfl
  · split
    · rfl
    · split
      · exact lookup_insertReplace_ne k s.id [] hk rets
      · exact lookup_insertReplace_ne k s.id _ hk rets

theorem execStep_preserves_isSome (root : List String) (rets : RetTable) (fs : FS)
    (s : Step) (k : String) (h : (rets.lookup k).isSome) :
    (((execStep root rets fs s).rets).lookup k).isSome := by
  by_cases hk : k = s.id
  · subst hk
    unfold execStep
    split
    · exact h
    · split
      · exact h
      · split
        · simp [lookup_insertReplace_self]
        · simp [lookup_insertReplace_self]
  · rw [execStep_lookup_ne root rets fs s k hk]
    exact h

theorem execStep_ok_self (root : List String) (rets : RetTable) (fs : FS) (s : Step)
    (h : (execStep root rets fs s).err = none) :
    (((execStep root rets fs s).rets).lookup s.id).isSome := by
  unfold execStep at h ⊢
  split at h
  · simp at h
  · rename_i fs2 args heq
    split at h
    · simp at h
    · rename_i result hrun
      split at h
      · simp at h
      · rename_i vals hdes
        simp only [heq, hrun, hdes, lookup_insertReplace_self]
        rfl

theorem runLoop_append_ok (root : List String) (l2 : List (Step × Nat)) :
    ∀ (l1 : List (Step × Nat)) (rets : RetTable) (fs : FS),
      (runLoop root l1 rets fs).err = none →
      runLoop root (l1 ++ l2) rets fs =
        ⟨(runLoop root l1 rets fs).stages
            ++ (runLoop root l2 (runLoop root l1 rets fs).rets (runLoop root l1 rets fs).fs).stages,
          (runLoop root l2 (runLoop root l1 rets fs).rets (runLoop root l1 rets fs).fs).rets,
          (runLoop root l2 (runLoop root l1 rets fs).rets (runLoop root l1 rets fs).fs).fs,
          (runLoop root l2 (runLoop root l1 rets fs).rets (runLoop root l1 rets fs).fs).err⟩ := by
  intro l1
  induction l1 with
  | nil => intro rets fs _; simp [runLoop]
  | cons p rest ih =>
      intro rets fs h
      obtain ⟨s, st⟩ := p
      simp only [runLoop, List.cons_append, List.append_eq] at h ⊢
      split at h
      · rename_i rets2 fs2 hexec
        simp only [hexec, List.append_eq] at h ⊢
        rw [ih rets2 fs2 h]
        simp
      · rename_i rets2 fs2 e hexec
        simp at h

theorem runLoop_append_err (root : List String) (l2 : List (Step × Nat)) (e : PyErr) :
    ∀ (l1 : List (Step × Nat)) (rets : RetTable) (fs : FS),
      (runLoop root l1 rets fs).err = some e →
      runLoop root (l1 ++ l2) rets fs =
        ⟨(runLoop root l1 rets fs).stages ++ l2.map Prod.snd,
          (runLoop root l1 rets fs).rets, (runLoop root l1 rets fs).fs, some e⟩ := by
  intro l1
  induction l1 with
  | nil => intro rets fs h; simp [runLoop] at h
  | cons p rest ih =>
      intro rets fs h
      obtain ⟨s, st⟩ := p
      simp only [runLoop, List.cons_append, List.append_eq] at h ⊢
      split at h
      · rename_i rets2 fs2 hexec
        simp only [hexec, List.append_eq] at h ⊢
        rw [ih rets2 fs2 h]
        simp
      · rename_i rets2 fs2 e2 hexec
        simp only [hexec] at h ⊢
        simp only [Option.some.injEq] at h
        subst h
        simp [List.map_append]

theorem runLoop_ok_stages (root : List String) :
    ∀ (l : List (Step × Nat)) (rets : RetTable) (fs : FS),
      (runLoop root l rets fs).err = none →
      (runLoop root l rets fs).stages = List.replicate l.length 2 := by
  intro l
  induction l with
  | nil => intro rets fs _; rfl
  | cons p rest ih =>
      intro rets fs h
      obtain ⟨s, st⟩ := p
      simp only [runLoop] at h ⊢
      split at h
      · rename_i rets2 fs2 hexec
        simp only [hexec] at h ⊢
        simp [List.replicate, ih rets2 fs2 h]
      · simp at h

theorem runLoop_preserves_isSome (root : List String) :
    ∀ (l : List (Step × Nat)) (rets : RetTable) (fs : FS) (k : String),
      (rets.lookup k).isSome →
      (((runLoop root l rets fs).rets).lookup k).isSome := by
  intro l
  induction l with
  | nil => intro rets fs k h; exact h
  | cons q rest ih =>
      intro rets fs k h
      obtain ⟨s, st⟩ := q
      simp only [runLoop]
      split
      · rename_i rets2 fs2 hexec
        refine ih rets2 fs2 k ?_
        have := execStep_preserves_isSome root rets fs s k h
        rw [hexec] at this
        exact this
      · rename_i rets2 fs2 e hexec
        have := execStep_preserves_isSome root rets fs s k h
        rw [hexec] at this
        exact this

theorem runLoop_ok_lookup_isSome (root : List String) :
    ∀ (l : List (Step × Nat)) (rets : RetTable) (fs : FS),
      (runLoop root l rets fs).err = none →
      ∀ p ∈ l, (((runLoop root l rets fs).rets).lookup p.1.id).isSome := by
  intro l
  induction l with
  | nil => intro rets fs _ p hp; cases hp
  | cons q rest ih =>
      intro rets fs h p hp
      obtain ⟨s, st⟩ := q
      simp only [runLoop] at h ⊢
      split at h
      · rename_i rets2 fs2 hexec
        simp only [hexec] at h ⊢
        rcases List.mem_cons.mp hp with hp | hp
        · subst hp
          have hself : (rets2.lookup s.id).isSome := by
            have h2 := execStep_ok_self root rets fs s (by rw [hexec])
            rw [hexec] at h2
            exact h2
          exact runLoop_preserves_isSome root rest rets2 fs2 s.id hself
        · exact ih rets2 fs2 h p hp
      · simp at h

theorem assembleLoop_append (rets : RetTable) (l2 : List (Step × Nat)) :
    ∀ (l1 : List (Step × Nat)) (a1 : List StepFeedback) (a2 : OutTable),
      assembleLoop rets (l1 ++ l2) a1 a2 =
        match assembleLoop rets l1 a1 a2 with
        | .error e => .error e
        | .ok (b1, b2) => assembleLoop rets l2 b1 b2 := by
  intro l1
  induction l1 with
  | nil => intro a1 a2; rfl
  | cons p rest ih =>
      intro a1 a2
      obtain ⟨s, st⟩ := p
      by_cases h2 : st = 2
      · cases hl : rets.lookup s.id with
        | none => simp [assembleLoop, List.cons_append, if_pos h2, hl]
        | some d =>
            cases hc : collectOutputs d s.outputs [] with
            | error e => simp [assembleLoop, List.cons_append, h2, hl, hc]
            | ok outs =>
                simp only [assembleLoop, List.cons_append, if_pos h2, hl, hc]
                exact ih _ _
      · simp only [assembleLoop, List.cons_append, if_neg h2]
        exact ih _ _

theorem assembleLoop_no2 (rets : RetTable) :
    ∀ (l : List (Step × Nat)) (a1 : List StepFeedback) (a2 : OutTable),
      (∀ p ∈ l, p.2 ≠ 2) →
      assembleLoop rets l a1 a2 =
        .ok (a1 ++ l.map (fun p => ⟨p.1.id, p.1.name, p.2, []⟩), a2) := by
  intro l
  induction l with
  | nil => intro a1 a2 _; simp [assembleLoop]
  | cons p rest ih =>
      intro a1 a2 h
      obtain ⟨s, st⟩ := p
      have h2 : st ≠ 2 := h (s, st) (List.mem_cons_self _ _)
      simp only [assembleLoop, if_neg h2]
      rw [ih _ _ (fun q hq => h q (List.mem_cons_of_mem _ hq))]
      simp

theorem collectOutputs_total (d : RetDict) :
    ∀ (os : List String) (acc : RetDict),
      (∀ o ∈ os, (d.lookup o).isSome) →
      ∃ out, collectOutputs d os acc = .ok out
        ∧ ∀ o2, out.lookup o2 = if o2 ∈ os then d.lookup o2 else acc.lookup o2 := by
  intro os
  induction os with
  | nil =>
      intro acc _
      exact ⟨acc, rfl, fun o2 => by simp⟩
  | cons o rest ih =>
      intro acc h
      have ho : (d.lookup o).isSome := h o (List.mem_cons_self _ _)
      obtain ⟨v, hv⟩ := Option.isSome_iff_exists.mp ho
      obtain ⟨out, hout, hprop⟩ := ih (insertReplace acc o v)
        (fun o2 ho2 => h o2 (List.mem_cons_of_mem _ ho2))
      refine ⟨out, ?_, ?_⟩
      · simp only [collectOutputs, hv]
        exact hout
      · intro o2
        rw [hprop o2]
        by_cases hmem : o2 ∈ rest
        · simp [hmem]
        · by_cases heq : o2 = o
          · subst heq
            simp [hmem, lookup_insertReplace_self, hv]
          · simp [hmem, heq, lookup_insertReplace_ne o2 o v heq]

/-- The feedback entry of a completed step. -/
def stepFb2 (rets : RetTable) (p : Step × Nat) : StepFeedback :=
  ⟨p.1.id, p.1.name, 2, (rets.lookup p.1.id).getD []⟩

theorem assembleLoop_all2 (rets : RetTable) :
    ∀ (l : List (Step × Nat)) (a1 : List StepFeedback) (a2 : OutTable),
      (∀ p ∈ l, p.2 = 2) →
      (∀ p ∈ l, ((rets.lookup p.1.id)).isSome) →
      (∀ p ∈ l, ∀ o ∈ p.1.outputs, (((rets.lookup p.1.id).getD []).lookup o).isSome) →
      ∃ outs, assembleLoop rets l a1 a2 = .ok (a1 ++ l.map (stepFb2 rets), outs)
        ∧ (∀ k, (∀ p ∈ l, p.1.id ≠ k) → outs.lookup k = a2.lookup k)
        ∧ ((l.map (fun p => p.1.id)).Nodup →
            ∀ p ∈ l, ∃ entry, outs.lookup p.1.id = some entry
              ∧ ∀ o, entry.lookup o =
                  if o ∈ p.1.outputs
                  then ((rets.lookup p.1.id).getD []).lookup o else none) := by
  intro l
  induction l with
  | nil =>
      intro a1 a2 _ _ _
      exact ⟨a2, by simp [assembleLoop], fun k _ => rfl, fun _ p hp => absurd hp (by simp)⟩
  | cons q rest ih =>
      intro a1 a2 hst hsome houts
      obtain ⟨s, st⟩ := q
      have h2 : st = 2 := hst (s, st) (List.mem_cons_self _ _)
      subst h2
      obtain ⟨d, hd⟩ := Option.isSome_iff_exists.mp (hsome (s, 2) (List.mem_cons_self _ _))
      have hdef : (rets.lookup s.id).getD [] = d := by rw [hd]; rfl
      obtain ⟨outS, hcout, hcprop⟩ := collectOutputs_total d s.outputs []
        (by intro o ho
            have h3 := houts (s, 2) (List.mem_cons_self _ _) o ho
            rw [hdef] at h3
            exact h3)
      obtain ⟨outs, heq, huntouched, hnodup⟩ := ih (a1 ++ [⟨s.id, s.name, 2, d⟩])
        (insertReplace a2 s.id outS)
        (fun p hp => hst p (List.mem_cons_of_mem _ hp))
        (fun p hp => hsome p (List.mem_cons_of_mem _ hp))
        (fun p hp => houts p (List.mem_cons_of_mem _ hp))
      refine ⟨outs, ?_, ?_, ?_⟩
      · simp only [assembleLoop, if_pos rfl, hd, hcout, heq]
        simp [stepFb2, hdef]
      · intro k hk
        rw [huntouched k (fun p hp => hk p (List.mem_cons_of_mem _ hp))]
        exact lookup_insertReplace_ne k s.id outS
          (fun hc => hk (s, 2) (List.mem_cons_self _ _) hc.symm) a2
      · intro hnd p hp
        have hnd2 := hnd
        simp only [List.map_cons, List.nodup_cons] at hnd2
        rcases List.mem_cons.mp hp with hp | hp
        · subst hp
          have hne : ∀ q ∈ rest, q.1.id ≠ s.id := by
            intro q hq hcq
            exact hnd2.1 (List.mem_map.mpr ⟨q, hq, hcq⟩)
          have hu := huntouched s.id hne
          rw [hu, lookup_insertReplace_self]
          refine ⟨outS, rfl, ?_⟩
          intro o
          rw [hcprop o, hdef]
          by_cases ho : o ∈ s.outputs
          · simp [ho]
          · simp [ho, List.lookup]
        · exact hnodup hnd2.2 p hp

theorem zip_replicate {α : Type} (a : Nat) :
    ∀ (l : List α), l.zip (List.replicate l.length a) = l.map (fun x => (x, a)) := by
  intro l
  induction l with
  | nil => rfl
  | cons x rest ih => simp [List.replicate_succ, ih]

theorem map_snd_map_pair {α : Type} (a : Nat) (l : List α) :
    (l.map (fun x => (x, a))).map Prod.snd = List.replicate l.length a := by
  induction l with
  | nil => rfl
  | cons x rest ih => simp [List.replicate_succ, ih]

/-- C9: the stage lives on the shared `Step` objects and `run_workflow`
never resets it, so it persists across invocations of the same `Workflow`
object (the model threads the incoming stages explicitly).  For a
workflow whose steps all completed in a prior invocation (every incoming
stage 2), a second invocation whose first step fails during resolution or
invocation (storing nothing) leaves the next step marked completed while
the fresh `step_returns` table is empty, so feedback assembly raises
`KeyError` on that step's id and `run_workflow` raises instead of
returning a feedback document; with every incoming stage 0 the same
failing run does return a feedback document with the error recorded. -/
theorem stale_stage_breaks_feedback (wf : Workflow) (s0 r1 : Step)
    (rest2 : List Step) (sink : Sink) (root : List String) (fsInit : FS)
    (hsteps : wf.steps = s0 :: r1 :: rest2)
    (hfail1 : (execStep root [] (mkdirParents fsInit root) s0).rets = [])
    (hfail2 : ((execStep root [] (mkdirParents fsInit root) s0).err).isSome) :
    run_workflow wf (List.replicate wf.steps.length 2) sink root fsInit =
      .error (.keyError r1.id)
    ∧ ∃ r, run_workflow wf (List.replicate wf.steps.length 0) sink root fsInit = .ok r
        ∧ (r.feedback.error).isSome := by
  obtain ⟨e, he⟩ := Option.isSome_iff_exists.mp hfail2
  rcases hval : execStep root [] (mkdirParents fsInit root) s0 with ⟨r, f, er⟩
  rw [hval] at hfail1 he
  have hr : r = [] := hfail1
  have her : er = some e := he
  subst hr
  subst her
  constructor
  · have hzip : wf.steps.zip (List.replicate wf.steps.length 2) =
        (s0, 2) :: (r1, 2) :: rest2.map (fun s => (s, 2)) := by
      rw [hsteps]
      show (s0 :: r1 :: rest2).zip (List.replicate (rest2.length + 1 + 1) 2) = _
      rw [List.replicate_succ, List.replicate_succ]
      rw [List.zip_cons_cons, List.zip_cons_cons, zip_replicate]
    have hloop : runLoop root (wf.steps.zip (List.replicate wf.steps.length 2)) []
        (mkdirParents fsInit root) =
        ⟨1 :: 2 :: List.replicate rest2.length 2, [], f, some e⟩ := by
      rw [hzip]
      simp only [runLoop, hval]
      rw [List.map_cons, map_snd_map_pair]
    have hassemble : assembleLoop ([] : RetTable)
        (wf.steps.zip (1 :: 2 :: List.replicate rest2.length 2)) [] [] =
        .error (.keyError r1.id) := by
      rw [hsteps, List.zip_cons_cons, List.zip_cons_cons]
      rfl
    simp only [run_workflow, hloop, hassemble]
  · have hzip0 : wf.steps.zip (List.replicate wf.steps.length 0) =
        (s0, 0) :: (r1, 0) :: rest2.map (fun s => (s, 0)) := by
      rw [hsteps]
      show (s0 :: r1 :: rest2).zip (List.replicate (rest2.length + 1 + 1) 0) = _
      rw [List.replicate_succ, List.replicate_succ]
      rw [List.zip_cons_cons, List.zip_cons_cons, zip_replicate]
    have hloop0 : runLoop root (wf.steps.zip (List.replicate wf.steps.length 0)) []
        (mkdirParents fsInit root) =
        ⟨1 :: 0 :: List.replicate rest2.length 0, [], f, some e⟩ := by
      rw [hzip0]
      simp only [runLoop, hval]
      rw [List.map_cons, map_snd_map_pair]
    have hno2 : ∀ p ∈ wf.steps.zip (1 :: 0 :: List.replicate rest2.length 0),
        p.2 ≠ 2 := by
      rw [hsteps, List.zip_cons_cons, List.zip_cons_cons]
      intro p hp
      rcases List.mem_cons.mp hp with hp | hp
      · subst hp
        exact (by decide : (1 : Nat) ≠ 2)
      · rcases List.mem_cons.mp hp with hp | hp
        · subst hp
          exact (by decide : (0 : Nat) ≠ 2)
        · obtain ⟨x, y⟩ := p
          have hmz := List.of_mem_zip hp
          have h0 := List.eq_of_mem_replicate hmz.2
          subst h0
          exact (by decide : (0 : Nat) ≠ 2)
    have hassemble0 := assembleLoop_no2 ([] : RetTable)
      (wf.steps.zip (1 :: 0 :: List.replicate rest2.length 0)) [] [] hno2
    have hrun : run_workflow wf (List.replicate wf.steps.length 0) sink root fsInit =
        .ok ⟨⟨"2.0", wf.version, wf.id, wf.name, some e.toMsg, some (formatTb e),
          (wf.steps.zip (1 :: 0 :: List.replicate rest2.length 0)).map
            (fun p => ⟨p.1.id, p.1.name, p.2, []⟩), []⟩,
          1 :: 0 :: List.replicate rest2.length 0, f,
          writesFor sink (serializeFeedback
            ⟨"2.0", wf.version, wf.id, wf.name, some e.toMsg, some (formatTb e),
              (wf.steps.zip (1 :: 0 :: List.replicate rest2.length 0)).map
                (fun p => ⟨p.1.id, p.1.name, p.2, []⟩), []⟩)⟩ := by
      simp only [run_workflow, hloop0, hassemble0]
      simp
    exact ⟨_, hrun, by simp⟩

/-- An operation with no parameters that always raises. -/
def opRaise : Operation := ⟨"opFail", [], fun _ => .error (.user "boom")⟩

/-- First step of the concrete C9 workflow: always raises. -/
def stepC9a : Step := ⟨"a", "A", opRaise, [], [], []⟩

/-- Second step of the concrete C9 workflow: returns one value. -/
def stepC9b : Step := ⟨"b", "B", opNullary, [], ["x"], []⟩

/-- Concrete two-step workflow whose first step always raises. -/
def exC9 : Workflow := ⟨"w", "1", "wf", "", [stepC9a, stepC9b]⟩

/-- Witness for C9: with both steps stale at stage 2, the second run of
the concrete workflow raises `KeyError("b")`; with fresh stages it
returns a feedback document recording the error. -/
theorem stale_stage_breaks_feedback_witness :
    run_workflow exC9 (List.replicate exC9.steps.length 2) Sink.none ["w"] (FS.mk [] []) =
      .error (.keyError stepC9b.id)
    ∧ ∃ r, run_workflow exC9 (List.replicate exC9.steps.length 0) Sink.none ["w"]
          (FS.mk [] []) = .ok r
        ∧ (r.feedback.error).isSome :=
  stale_stage_breaks_feedback exC9 stepC9a stepC9b [] Sink.none ["w"] (FS.mk [] [])
    rfl rfl rfl

/-- The `try`-block outcome of a `run_workflow` invocation. -/
def runOut (wf : Workflow) (stages0 : List Nat) (root : List String) (fs0 : FS) :
    LoopOut :=
  runLoop root (wf.steps.zip stages0) [] (mkdirParents fs0 root)

/-- The feedback document assembled from a run's outcome. -/
def feedbackOf (wf : Workflow) (stages0 : List Nat) (root : List String) (fs0 : FS)
    (sfbs : List StepFeedback) (outs : OutTable) : Feedback :=
  ⟨"2.0", wf.version, wf.id, wf.name,
    (runOut wf stages0 root fs0).err.map PyErr.toMsg,
    (runOut wf stages0 root fs0).err.map formatTb, sfbs, outs⟩

theorem run_workflow_eq_ok (wf : Workflow) (stages0 : List Nat) (sink : Sink)
    (root : List String) (fs0 : FS) (sfbs : List StepFeedback) (outs : OutTable)
    (hasm : assembleLoop (runOut wf stages0 root fs0).rets
        (wf.steps.zip (runOut wf stages0 root fs0).stages) [] [] = .ok (sfbs, outs)) :
    run_workflow wf stages0 sink root fs0 =
      .ok ⟨feedbackOf wf stages0 root fs0 sfbs outs,
        (runOut wf stages0 root fs0).stages, (runOut wf stages0 root fs0).fs,
        writesFor sink (serializeFeedback (feedbackOf wf stages0 root fs0 sfbs outs))⟩ := by
  simp only [runOut, feedbackOf] at hasm ⊢
  simp only [run_workflow, hasm]

theorem run_workflow_eq_error (wf : Workflow) (stages0 : List Nat) (sink : Sink)
    (root : List String) (fs0 : FS) (e : PyErr)
    (hasm : assembleLoop (runOut wf stages0 root fs0).rets
        (wf.steps.zip (runOut wf stages0 root fs0).stages) [] [] = .error e) :
    run_workflow wf stages0 sink root fs0 = .error e := by
  simp only [runOut] at hasm
  simp only [run_workflow, hasm]

/-- Operation with no parameters returning the number 1. -/
def opOne : Operation := ⟨"opOne", [], fun _ => .ok (.vnat 1)⟩

/-- Concrete workflow for C3: its single step succeeds, stores return name
`x`, but declares output `y`, which validation never checks. -/
def exC3bad : Workflow :=
  ⟨"w", "1", "wf", "", [⟨"s", "S", opOne, [], ["x"], ["y"]⟩]⟩

/-- Counterexample to C3 as stated: `exC3bad` is freshly constructed and
validated, its single step's resolution and invocation succeed (the step
loop ends with no error), yet `run_workflow` does not return a feedback
document — feedback assembly raises `KeyError("y")` because the declared
output name was never stored, and validation has no check relating
`outputs` to `return_names`. -/
theorem run_all_success_feedback_cex :
    exC3bad.validate = Except.ok ()
    ∧ (runLoop ["w"] (exC3bad.steps.zip (List.replicate exC3bad.steps.length 0)) []
        (mkdirParents (FS.mk [] []) ["w"])).err = none
    ∧ run_workflow exC3bad (List.replicate exC3bad.steps.length 0) Sink.none ["w"]
        (FS.mk [] []) = .error (.keyError "y") :=
  ⟨rfl, rfl, rfl⟩

/-- C3 (amended): for a freshly constructed validated workflow of `N`
steps with pairwise-distinct step ids in which every step's resolution and
invocation succeeds **and every declared output name is among the names
the step actually stored**, `run_workflow` returns a feedback document
with exactly `N` entries in `steps`, all at stage 2 (completed), no
`error`/`error_stack` field, and, per step, an `outputs` entry holding
exactly the declared output names with the stored values.  (The claim as
stated is false: nothing validates `outputs ⊆ return_names`, see the
counterexample; distinct ids are likewise needed because a duplicated id
makes the later step's returns stand in for the earlier one's.) -/
theorem run_all_success_feedback (wf : Workflow) (sink : Sink) (root : List String)
    (fs0 : FS)
    (hval : wf.validate = Except.ok ())
    (hnodup : (wf.steps.map Step.id).Nodup)
    (herr : (runOut wf (List.replicate wf.steps.length 0) root fs0).err = none)
    (houts : ∀ s ∈ wf.steps, ∀ o ∈ s.outputs,
      ((((runOut wf (List.replicate wf.steps.length 0) root fs0).rets.lookup s.id).getD
          []).lookup o).isSome) :
    ∃ r, run_workflow wf (List.replicate wf.steps.length 0) sink root fs0 = .ok r
      ∧ r.feedback.steps.length = wf.steps.length
      ∧ (∀ sf ∈ r.feedback.steps, sf.stage = 2)
      ∧ r.feedback.error = none
      ∧ r.feedback.error_stack = none
      ∧ (∀ s ∈ wf.steps, ∃ entry, r.feedback.outputs.lookup s.id = some entry
          ∧ ∀ o, entry.lookup o =
              if o ∈ s.outputs
              then (((runOut wf (List.replicate wf.steps.length 0) root fs0).rets.lookup
                  s.id).getD []).lookup o
              else none) := by
  have hzip0 : wf.steps.zip (List.replicate wf.steps.length 0) =
      wf.steps.map (fun s => (s, 0)) := zip_replicate 0 wf.steps
  have hstages : (runOut wf (List.replicate wf.steps.length 0) root fs0).stages =
      List.replicate wf.steps.length 2 := by
    have h1 := runLoop_ok_stages root (wf.steps.zip (List.replicate wf.steps.length 0)) []
      (mkdirParents fs0 root) herr
    rw [hzip0] at h1
    simp only [runOut]
    rw [hzip0, h1, List.length_map]
  have hzip2 : wf.steps.zip (List.replicate wf.steps.length 2) =
      wf.steps.map (fun s => (s, 2)) := zip_replicate 2 wf.steps
  have hsome : ∀ p ∈ wf.steps.map (fun s => (s, 2)),
      (((runOut wf (List.replicate wf.steps.length 0) root fs0).rets).lookup
        p.1.id).isSome := by
    intro p hp
    obtain ⟨s, hs, hps⟩ := List.mem_map.mp hp
    subst hps
    have hmem0 : (s, 0) ∈ wf.steps.zip (List.replicate wf.steps.length 0) := by
      rw [hzip0]
      exact List.mem_map.mpr ⟨s, hs, rfl⟩
    exact runLoop_ok_lookup_isSome root
      (wf.steps.zip (List.replicate wf.steps.length 0)) [] (mkdirParents fs0 root)
      herr (s, 0) hmem0
  obtain ⟨outs, hasm, huntouched, hnodupC⟩ :=
    assembleLoop_all2 (runOut wf (List.replicate wf.steps.length 0) root fs0).rets
      (wf.steps.map (fun s => (s, 2))) [] []
      (by intro p hp; obtain ⟨s, hs, hps⟩ := List.mem_map.mp hp; rw [← hps])
      hsome
      (by intro p hp o ho
          obtain ⟨s, hs, hps⟩ := List.mem_map.mp hp
          subst hps
          exact houts s hs o ho)
  have hids : ((wf.steps.map (fun s => (s, 2))).map (fun p => p.1.id)).Nodup := by
    rw [List.map_map]
    exact hnodup
  have hasm2 : assembleLoop (runOut wf (List.replicate wf.steps.length 0) root fs0).rets
      (wf.steps.zip (runOut wf (List.replicate wf.steps.length 0) root fs0).stages) [] []
      = .ok ((wf.steps.map (fun s => (s, 2))).map
          (stepFb2 (runOut wf (List.replicate wf.steps.length 0) root fs0).rets), outs) := by
    rw [hstages, hzip2]
    simpa using hasm
  refine ⟨_, run_workflow_eq_ok wf (List.replicate wf.steps.length 0) sink root fs0 _ _
    hasm2, ?_, ?_, ?_, ?_, ?_⟩
  · simp [feedbackOf]
  · intro sf hsf
    simp only [feedbackOf] at hsf
    obtain ⟨p, _, hps⟩ := List.mem_map.mp hsf
    rw [← hps]
    rfl
  · simp [feedbackOf, herr]
  · simp [feedbackOf, herr]
  · intro s hs
    have := hnodupC hids (s, 2) (List.mem_map.mpr ⟨s, hs, rfl⟩)
    simpa [feedbackOf] using this

/-- Concrete workflow for the C3 witness: one step, returns and outputs
both the single name `x`. -/
def exC3ok : Workflow :=
  ⟨"w", "1", "wf", "", [⟨"s", "S", opOne, [], ["x"], ["x"]⟩]⟩

/-- Witness for the amended C3 at a concrete all-success workflow. -/
theorem run_all_success_feedback_witness :
    ∃ r, run_workflow exC3ok (List.replicate exC3ok.steps.length 0) Sink.none ["w"]
        (FS.mk [] []) = .ok r
      ∧ r.feedback.steps.length = exC3ok.steps.length
      ∧ (∀ sf ∈ r.feedback.steps, sf.stage = 2)
      ∧ r.feedback.error = none
      ∧ r.feedback.error_stack = none
      ∧ (∀ s ∈ exC3ok.steps, ∃ entry, r.feedback.outputs.lookup s.id = some entry
          ∧ ∀ o, entry.lookup o =
              if o ∈ s.outputs
              then (((runOut exC3ok (List.replicate exC3ok.steps.length 0) ["w"]
                  (FS.mk [] [])).rets.lookup s.id).getD []).lookup o
              else none) :=
  run_all_success_feedback exC3ok Sink.none ["w"] (FS.mk [] []) rfl (by decide) rfl
    (by decide)

/-- Concrete workflow for the C1 counterexample: the first step succeeds
but declares an output name it never stores, the second step raises. -/
def exC1bad : Workflow :=
  ⟨"w", "1", "wf", "",
    [⟨"a", "A", opOne, [], ["x"], ["y"]⟩, ⟨"b", "B", opRaise, [], [], []⟩]⟩

/-- Counterexample to C1 as stated: `exC1bad` is a validated workflow and
its second step's invocation raises, yet `run_workflow` does not return a
feedback document — assembling the feedback for the completed first step
raises `KeyError("y")` on its unstored output name, so the claim's
"still returns a feedback document" fails. -/
theorem partial_failure_feedback_cex :
    exC1bad.validate = Except.ok ()
    ∧ run_workflow exC1bad (List.replicate exC1bad.steps.length 0) Sink.none ["w"]
        (FS.mk [] []) = .error (.keyError "y") :=
  ⟨rfl, rfl⟩

/-- The step loop restricted to the fresh prefix before the failing step. -/
def preLoop (root : List String) (fs0 : FS) (pre : List Step) : LoopOut :=
  runLoop root (pre.map (fun s => (s, 0))) [] (mkdirParents fs0 root)

/-- C1 (amended): for a freshly constructed validated workflow with
pairwise-distinct step ids whose steps split as `pre ++ sf :: post`, where
every step of `pre` succeeds, step `sf` fails during argument resolution
or operation invocation, **and every completed step's declared outputs are
among its stored return names**, `run_workflow` invokes no operation of
`post` (their entries show their incoming stage 0 and empty returns),
records the error message and a formatted stack trace in `error` and
`error_stack`, and still returns a feedback document in which every
completed step of `pre` appears at stage 2 with its captured returns and
outputs, the failing step appears at stage 1, and every step of `post`
appears at stage 0 (not started) with empty returns.  (As stated the claim
is false — without the outputs condition feedback assembly itself raises,
see the counterexample.) -/
theorem partial_failure_feedback (wf : Workflow) (pre : List Step) (sf : Step)
    (post : List Step) (sink : Sink) (root : List String) (fs0 : FS)
    (hsteps : wf.steps = pre ++ sf :: post)
    (hval : wf.validate = Except.ok ())
    (hnodup : (wf.steps.map Step.id).Nodup)
    (hpre : (preLoop root fs0 pre).err = none)
    (hfail : ((execStep root (preLoop root fs0 pre).rets (preLoop root fs0 pre).fs
        sf).err).isSome)
    (houts : ∀ s ∈ pre, ∀ o ∈ s.outputs,
      ((((preLoop root fs0 pre).rets.lookup s.id).getD []).lookup o).isSome) :
    ∃ r, run_workflow wf (List.replicate wf.steps.length 0) sink root fs0 = .ok r
      ∧ (r.feedback.error).isSome
      ∧ (r.feedback.error_stack).isSome
      ∧ r.feedback.steps =
          pre.map (fun s => ⟨s.id, s.name, 2,
            ((preLoop root fs0 pre).rets.lookup s.id).getD []⟩)
          ++ ⟨sf.id, sf.name, 1, []⟩ :: post.map (fun s => ⟨s.id, s.name, 0, []⟩)
      ∧ (∀ s ∈ pre, ∃ entry, r.feedback.outputs.lookup s.id = some entry
          ∧ ∀ o, entry.lookup o =
              if o ∈ s.outputs
              then (((preLoop root fs0 pre).rets.lookup s.id).getD []).lookup o
              else none) := by
  obtain ⟨e, he⟩ := Option.isSome_iff_exists.mp hfail
  -- distinctness facts
  have hnd : ((pre.map Step.id) ++ sf.id :: post.map Step.id).Nodup := by
    have h1 := hnodup
    rw [hsteps, List.map_append, List.map_cons] at h1
    exact h1
  have hpresf : ∀ s ∈ pre, s.id ≠ sf.id := by
    intro s hs hc
    have h2 := (List.nodup_append.mp hnd).2.2
    exact h2 (List.mem_map.mpr ⟨s, hs, rfl⟩)
      (by rw [hc]; exact List.mem_cons_self _ _)
  have hprend : (pre.map Step.id).Nodup := (List.nodup_append.mp hnd).1
  -- the failing step's execution, destructured
  rcases hE : execStep root (preLoop root fs0 pre).rets (preLoop root fs0 pre).fs sf
    with ⟨r2, f2, er2⟩
  rw [hE] at he
  have her : er2 = some e := he
  subst her
  have hEne : ∀ k, k ≠ sf.id → r2.lookup k = (preLoop root fs0 pre).rets.lookup k := by
    intro k hk
    have h3 := execStep_lookup_ne root (preLoop root fs0 pre).rets
      (preLoop root fs0 pre).fs sf k hk
    rw [hE] at h3
    exact h3
  -- the whole fresh zip splits
  have hzip : wf.steps.zip (List.replicate wf.steps.length 0) =
      pre.map (fun s => (s, 0)) ++ (sf, 0) :: post.map (fun s => (s, 0)) := by
    rw [zip_replicate, hsteps, List.map_append, List.map_cons]
  -- the loop outcome
  have hloop : runLoop root (wf.steps.zip (List.replicate wf.steps.length 0)) []
      (mkdirParents fs0 root) =
      ⟨List.replicate pre.length 2 ++ 1 :: List.replicate post.length 0,
        r2, f2, some e⟩ := by
    rw [hzip]
    rw [runLoop_append_ok root ((sf, 0) :: post.map (fun s => (s, 0)))
      (pre.map (fun s => (s, 0))) [] (mkdirParents fs0 root) hpre]
    have hinner : runLoop root ((sf, 0) :: post.map (fun s => (s, 0)))
        (preLoop root fs0 pre).rets (preLoop root fs0 pre).fs =
        ⟨1 :: List.replicate post.length 0, r2, f2, some e⟩ := by
      simp only [runLoop, hE]
      rw [map_snd_map_pair]
    have hst1 : (preLoop root fs0 pre).stages = List.replicate pre.length 2 := by
      have h4 := runLoop_ok_stages root (pre.map (fun s => (s, 0))) []
        (mkdirParents fs0 root) hpre
      simp only [preLoop]
      rw [h4, List.length_map]
    simp only [preLoop] at hinner hst1
    rw [hinner, hst1]
  -- the assembly list splits
  have hzips : wf.steps.zip
      (List.replicate pre.length 2 ++ 1 :: List.replicate post.length 0) =
      pre.map (fun s => (s, 2)) ++ (sf, 1) :: post.map (fun s => (s, 0)) := by
    rw [hsteps]
    rw [List.zip_append (by rw [List.length_replicate])]
    rw [List.zip_cons_cons, zip_replicate 2 pre, zip_replicate 0 post]
  -- assemble the completed prefix
  obtain ⟨outsPre, hasmPre, huntouchedPre, hnodupPre⟩ :=
    assembleLoop_all2 r2 (pre.map (fun s => (s, 2))) [] []
      (by intro p hp; obtain ⟨s, hs, hps⟩ := List.mem_map.mp hp; rw [← hps])
      (by intro p hp
          obtain ⟨s, hs, hps⟩ := List.mem_map.mp hp
          subst hps
          rw [hEne s.id (hpresf s hs)]
          exact runLoop_ok_lookup_isSome root (pre.map (fun s => (s, 0))) []
            (mkdirParents fs0 root) hpre (s, 0) (List.mem_map.mpr ⟨s, hs, rfl⟩))
      (by intro p hp o ho
          obtain ⟨s, hs, hps⟩ := List.mem_map.mp hp
          subst hps
          rw [hEne s.id (hpresf s hs)]
          exact houts s hs o ho)
  have hno2tail : ∀ p ∈ ((sf, 1) :: post.map (fun s => (s, 0)) :
      List (Step × Nat)), p.2 ≠ 2 := by
    intro p hp
    rcases List.mem_cons.mp hp with hp | hp
    · subst hp
      exact (by decide : (1 : Nat) ≠ 2)
    · obtain ⟨s, hs, hps⟩ := List.mem_map.mp hp
      rw [← hps]
      exact (by decide : (0 : Nat) ≠ 2)
  have hasmAll : assembleLoop r2
      (pre.map (fun s => (s, 2)) ++ (sf, 1) :: post.map (fun s => (s, 0))) [] [] =
      .ok (([] ++ (pre.map (fun s => (s, 2))).map (stepFb2 r2))
          ++ ((sf, 1) :: post.map (fun s => (s, 0))).map
            (fun p => ⟨p.1.id, p.1.name, p.2, []⟩), outsPre) := by
    rw [assembleLoop_append]
    rw [hasmPre]
    exact assembleLoop_no2 r2 _ _ _ hno2tail
  -- package through run_workflow
  have hasm2 : assembleLoop
      (runOut wf (List.replicate wf.steps.length 0) root fs0).rets
      (wf.steps.zip (runOut wf (List.replicate wf.steps.length 0) root fs0).stages) [] []
      = .ok (([] ++ (pre.map (fun s => (s, 2))).map (stepFb2 r2))
          ++ ((sf, 1) :: post.map (fun s => (s, 0))).map
            (fun p => ⟨p.1.id, p.1.name, p.2, []⟩), outsPre) := by
    simp only [runOut]
    rw [hloop, hzips]
    exact hasmAll
  refine ⟨_, run_workflow_eq_ok wf (List.replicate wf.steps.length 0) sink root fs0 _ _
    hasm2, ?_, ?_, ?_, ?_⟩
  · simp only [feedbackOf, runOut]
    rw [hloop]
    simp
  · simp only [feedbackOf, runOut]
    rw [hloop]
    simp
  · simp only [feedbackOf]
    rw [List.nil_append, List.map_cons]
    congr 1
    · rw [List.map_map]
      refine List.map_congr_left ?_
      intro s hs
      simp only [Function.comp, stepFb2]
      rw [hEne s.id (hpresf s hs)]
    · congr 1
      rw [List.map_map]
      rfl
  · intro s hs
    have h5 := hnodupPre (by rw [List.map_map]; exact hprend) (s, 2)
      (List.mem_map.mpr ⟨s, hs, rfl⟩)
    obtain ⟨entry, hent, hprop⟩ := h5
    refine ⟨entry, ?_, ?_⟩
    · simp only [feedbackOf]
      rw [← hent]
    · intro o
      rw [hprop o]
      rw [hEne s.id (hpresf s hs)]

/-- Concrete workflow for the C1 witness: first step succeeds and outputs
its stored name, second step raises. -/
def exC1ok : Workflow :=
  ⟨"w", "1", "wf", "",
    [⟨"a", "A", opOne, [], ["x"], ["x"]⟩, ⟨"b", "B", opRaise, [], [], []⟩]⟩

/-- First step of `exC1ok`. -/
def stepC1a : Step := ⟨"a", "A", opOne, [], ["x"], ["x"]⟩

/-- Second step of `exC1ok`. -/
def stepC1b : Step := ⟨"b", "B", opRaise, [], [], []⟩

/-- Witness for the amended C1 at the concrete two-step workflow. -/
theorem partial_failure_feedback_witness :
    ∃ r, run_workflow exC1ok (List.replicate exC1ok.steps.length 0) Sink.none ["w"]
        (FS.mk [] []) = .ok r
      ∧ (r.feedback.error).isSome
      ∧ (r.feedback.error_stack).isSome
      ∧ r.feedback.steps =
          [stepC1a].map (fun s => ⟨s.id, s.name, 2,
            ((preLoop ["w"] (FS.mk [] []) [stepC1a]).rets.lookup s.id).getD []⟩)
          ++ ⟨stepC1b.id, stepC1b.name, 1, []⟩ ::
            ([] : List Step).map (fun s => ⟨s.id, s.name, 0, []⟩)
      ∧ (∀ s ∈ [stepC1a], ∃ entry, r.feedback.outputs.lookup s.id = some entry
          ∧ ∀ o, entry.lookup o =
              if o ∈ s.outputs
              then (((preLoop ["w"] (FS.mk [] []) [stepC1a]).rets.lookup s.id).getD
                []).lookup o
              else none) :=
  partial_failure_feedback exC1ok [stepC1a] stepC1b [] Sink.none ["w"] (FS.mk [] [])
    rfl rfl (by decide) rfl rfl (by decide)

/-- Operation with no parameters returning the pair `(1, 2)`. -/
def opPair : Operation := ⟨"opPair", [], fun _ => .ok (.vtup [.vnat 1, .vnat 2])⟩

/-- Operation with no parameters returning the triple `(1, 2, 3)`. -/
def opTriple : Operation :=
  ⟨"opTriple", [], fun _ => .ok (.vtup [.vnat 1, .vnat 2, .vnat 3])⟩

/-- Concrete workflow for the C2 counterexample: two declared return
names, an operation returning three values. -/
def exC2 : Workflow :=
  ⟨"w", "1", "wf", "", [⟨"s", "S", opTriple, [], ["a", "b"], []⟩]⟩

/-- Counterexample to C2 as stated: with two declared return names and a
result of arity three — a mismatch the claim calls a fatal step error —
the step completes normally: `zip` silently truncates, the loop ends with
no error, the step reaches stage 2 and stores only the first two values. -/
theorem destructuring_arity_cex :
    exC2.validate = Except.ok ()
    ∧ (runOut exC2 (List.replicate exC2.steps.length 0) ["w"] (FS.mk [] [])).err = none
    ∧ (runOut exC2 (List.replicate exC2.steps.length 0) ["w"] (FS.mk [] [])).stages = [2]
    ∧ (runOut exC2 (List.replicate exC2.steps.length 0) ["w"]
        (FS.mk [] [])).rets.lookup "s" =
      some [("a", Val.vnat 1), ("b", Val.vnat 2)] :=
  ⟨rfl, rfl, rfl, rfl⟩

/-- C2 (amended): the arity rule of the runner is: exactly one declared
return name wraps the raw result as a one-element result set; more than
one name destructures the result positionally, **silently truncating to
the shorter of the two sides on an arity mismatch** (no error); the only
fatal step error is a non-iterable result with more than one declared
name, which raises `TypeError` and aborts the step (its stage stays 1 and
the run's error fields are set, while `step_returns[id]` was already reset
to the empty dictionary). -/
theorem destructuring_arity_rule (root : List String) (rets : RetTable) (fs : FS)
    (s : Step) (fs2 : FS) (args : List (String × Val)) (result : Val)
    (hres : resolveArgs root rets s.arguments fs = (fs2, .ok args))
    (hrun : s.method.run args = .ok result) :
    (∀ nm, s.return_names = [nm] →
      execStep root rets fs s = ⟨insertReplace rets s.id [(nm, result)], fs2, none⟩)
    ∧ (1 < s.return_names.length → ∀ vs, result = .vtup vs →
      execStep root rets fs s =
        ⟨insertReplace rets s.id (dictOfPairs (s.return_names.zip vs)), fs2, none⟩)
    ∧ (1 < s.return_names.length → (∀ vs, result ≠ .vtup vs) →
      execStep root rets fs s = ⟨insertReplace rets s.id [], fs2,
        some (.typeError "zip argument does not support iteration")⟩) := by
  refine ⟨?_, ?_, ?_⟩
  · intro nm hnm
    simp only [execStep, hres, hrun, hnm]
    rfl
  · intro hlen vs hvs
    subst hvs
    simp only [execStep, hres, hrun, destructure, if_pos hlen]
  · intro hlen hnt
    cases result with
    | vnat n => simp only [execStep, hres, hrun, destructure, if_pos hlen]
    | vstr a => simp only [execStep, hres, hrun, destructure, if_pos hlen]
    | vpath p => simp only [execStep, hres, hrun, destructure, if_pos hlen]
    | vtup vs => exact absurd rfl (hnt vs)

/-- Step for the C2 witness: two return names, an operation returning a
pair of matching arity. -/
def stepC2w : Step := ⟨"s", "S", opPair, [], ["a", "b"], []⟩

/-- Witness for the amended C2: the multi-name destructuring branch at a
concrete step. -/
theorem destructuring_arity_rule_witness :
    execStep ["w"] [] (FS.mk [] []) stepC2w =
      ⟨insertReplace [] "s" (dictOfPairs ((["a", "b"]).zip [Val.vnat 1, Val.vnat 2])),
        FS.mk [] [], none⟩ :=
  (destructuring_arity_rule ["w"] [] (FS.mk [] []) stepC2w (FS.mk [] []) []
    (.vtup [.vnat 1, .vnat 2]) rfl rfl).2.1 (by decide) [Val.vnat 1, Val.vnat 2] rfl

theorem resolveArgs_lookup_some (root : List String) (rets : RetTable) :
    ∀ (args : List (String × ArgValue)) (fs fs2 : FS) (res : List (String × Val))
      (n : String) (av : ArgValue) (w : Val),
      resolveArgs root rets args fs = (fs2, .ok res) →
      args.lookup n = some av →
      (∀ g : FS, ∃ g2, resolveArg root rets g av = .ok (w, g2)) →
      res.lookup n = some w := by
  intro args
  induction args with
  | nil => intro fs fs2 res n av w h hl _; cases hl
  | cons a rest ih =>
      intro fs fs2 res n av w h hl hres
      obtain ⟨m, av2⟩ := a
      cases hra : resolveArg root rets fs av2 with
      | error e =>
          simp only [resolveArgs, hra] at h
          exact absurd (congrArg Prod.snd h) (by simp)
      | ok p =>
          obtain ⟨rv, fsB⟩ := p
          simp only [resolveArgs, hra] at h
          rcases hrr : resolveArgs root rets rest fsB with ⟨fs3, r3⟩
          rw [hrr] at h
          cases r3 with
          | error e => simp at h
          | ok rs =>
              have h2 : ((fs3, Except.ok ((m, rv) :: rs)) :
                  FS × Except PyErr (List (String × Val))) = (fs2, Except.ok res) := h
              have hres2 : res = (m, rv) :: rs := by
                have h3 := congrArg Prod.snd h2
                simpa using h3.symm
              subst hres2
              by_cases hnm : n = m
              · subst hnm
                simp only [List.lookup, beq_self_eq_true, Option.some.injEq] at hl ⊢
                subst hl
                obtain ⟨g2, hg⟩ := hres fs
                rw [hra] at hg
                simp only [Except.ok.injEq, Prod.mk.injEq] at hg
                exact hg.1
              · simp only [List.lookup, beq_false_of_ne hnm] at hl ⊢
                exact ih fsB fs3 rs n av w (by rw [hrr]) hl hres

/-- C6: during execution of a validated workflow, an argument bound to
`StepOutput(S, x)` resolves to exactly the value the most recently
completed step with id `S` stored under return name `x` — the entry of the
runner's `step_returns[S][x]` — even when that step stored several named
values, and a literal argument value passes through unchanged.  The
resolved mapping `res` is what `execStep` passes verbatim to the step's
operation. -/
theorem argument_wiring (root : List String) (rets : RetTable)
    (args : List (String × ArgValue)) (fs fs2 : FS) (res : List (String × Val))
    (hres : resolveArgs root rets args fs = (fs2, .ok res)) :
    (∀ n S x d v, args.lookup n = some (ArgValue.stepOutput S x) →
      rets.lookup S = some d → d.lookup x = some v → res.lookup n = some v)
    ∧ (∀ n w, args.lookup n = some (ArgValue.lit w) → res.lookup n = some w) := by
  constructor
  · intro n S x d v hl hS hx
    refine resolveArgs_lookup_some root rets args fs fs2 res n
      (ArgValue.stepOutput S x) v hres hl ?_
    intro g
    exact ⟨g, by simp only [resolveArg, hS, hx]⟩
  · intro n w hl
    refine resolveArgs_lookup_some root rets args fs fs2 res n
      (ArgValue.lit w) w hres hl ?_
    intro g
    exact ⟨g, rfl⟩

/-- Witness for C6: a concrete resolution where the producing step stored
two named values and the argument receives the one named `x`, while a
literal passes through. -/
theorem argument_wiring_witness :
    (([("p", ArgValue.stepOutput "s1" "x"), ("q", ArgValue.lit (Val.vnat 9))].lookup
        "p" = some (ArgValue.stepOutput "s1" "x"))
      ∧ [("p", Val.vnat 7), ("q", Val.vnat 9)].lookup "p" = some (Val.vnat 7))
    ∧ [("p", Val.vnat 7), ("q", Val.vnat 9)].lookup "q" = some (Val.vnat 9) :=
  ⟨⟨rfl,
    (argument_wiring ["w"] [("s1", [("x", Val.vnat 7), ("z", Val.vnat 8)])]
      [("p", ArgValue.stepOutput "s1" "x"), ("q", ArgValue.lit (Val.vnat 9))]
      (FS.mk [] []) (FS.mk [] []) [("p", Val.vnat 7), ("q", Val.vnat 9)] rfl).1
      "p" "s1" "x" [("x", Val.vnat 7), ("z", Val.vnat 8)] (Val.vnat 7) rfl rfl rfl⟩,
    (argument_wiring ["w"] [("s1", [("x", Val.vnat 7), ("z", Val.vnat 8)])]
      [("p", ArgValue.stepOutput "s1" "x"), ("q", ArgValue.lit (Val.vnat 9))]
      (FS.mk [] []) (FS.mk [] []) [("p", Val.vnat 7), ("q", Val.vnat 9)] rfl).2
      "q" (Val.vnat 9) rfl⟩

/-- Concrete one-step workflow for the C7 counterexample. -/
def exC7 : Workflow :=
  ⟨"w", "1", "wf", "", [⟨"s", "S", opOne, [], [], []⟩]⟩

/-- Counterexample to C7 as stated: supplying a writable stream that is
neither `sys.stdout` nor `sys.stderr` produces **zero** writes — the
membership test `feedback_filename in [sys.stderr, sys.stdout]` and the
`isinstance(..., Path)` branch both fail — although the run succeeds and
a feedback document exists, where the claim demands exactly one write for
every supplied sink. -/
theorem feedback_sink_writes_cex :
    (run_workflow exC7 (List.replicate exC7.steps.length 0) Sink.otherStream ["w"]
        (FS.mk [] [])).map RunResult.writes = .ok []
    ∧ (run_workflow exC7 (List.replicate exC7.steps.length 0) Sink.otherStream ["w"]
        (FS.mk [] [])).isOk :=
  ⟨rfl, rfl⟩

/-- C7 (amended): whenever `run_workflow` returns (the feedback assembly
did not raise), the document is serialized and written exactly once at the
very end for the `sys.stdout` or `sys.stderr` stream and for a filesystem
path, and **zero** times both for no sink and for any other writable
stream; execution and the document itself do not depend on the sink; and
serialization is total, each non-serializable value (the embedded `vpath`)
rendered through the `json_default` type-name-plus-string-repr placeholder
rather than failing the write. -/
theorem feedback_sink_writes :
    (∀ (wf : Workflow) (st0 : List Nat) (root : List String) (fs0 : FS),
      ((run_workflow wf st0 Sink.stdoutStream root fs0).map RunResult.writes =
        (run_workflow wf st0 Sink.stdoutStream root fs0).map
          (fun r => [serializeFeedback r.feedback]))
      ∧ ((run_workflow wf st0 Sink.stderrStream root fs0).map RunResult.writes =
        (run_workflow wf st0 Sink.stderrStream root fs0).map
          (fun r => [serializeFeedback r.feedback]))
      ∧ (∀ p, (run_workflow wf st0 (Sink.pathSink p) root fs0).map RunResult.writes =
        (run_workflow wf st0 (Sink.pathSink p) root fs0).map
          (fun r => [serializeFeedback r.feedback]))
      ∧ ((run_workflow wf st0 Sink.none root fs0).map RunResult.writes =
        (run_workflow wf st0 Sink.none root fs0).map (fun _ => ([] : List String)))
      ∧ ((run_workflow wf st0 Sink.otherStream root fs0).map RunResult.writes =
        (run_workflow wf st0 Sink.otherStream root fs0).map
          (fun _ => ([] : List String)))
      ∧ (∀ sink, (run_workflow wf st0 sink root fs0).map RunResult.feedback =
          (run_workflow wf st0 Sink.none root fs0).map RunResult.feedback))
    ∧ (∀ p, serializeVal (Val.vpath p) =
        "\x22" ++ json_default (Val.vpath p) ++ "\x22")
    ∧ (∀ p, json_default (Val.vpath p) =
        "<non-serializable: " ++ Val.typeName (Val.vpath p) ++ " "
          ++ strRepr (Val.vpath p) ++ ">") := by
  refine ⟨?_, fun p => rfl, fun p => rfl⟩
  intro wf st0 root fs0
  cases hasm : assembleLoop (runOut wf st0 root fs0).rets
      (wf.steps.zip (runOut wf st0 root fs0).stages) [] [] with
  | error e =>
      have herr : ∀ sink, run_workflow wf st0 sink root fs0 = .error e :=
        fun sink => run_workflow_eq_error wf st0 sink root fs0 e hasm
      refine ⟨?_, ?_, ?_, ?_, ?_, ?_⟩
      · rw [herr]; rfl
      · rw [herr]; rfl
      · intro p; rw [herr]; rfl
      · rw [herr]; rfl
      · rw [herr]; rfl
      · intro sink; rw [herr, herr]
  | ok pr =>
      obtain ⟨sfbs, outs⟩ := pr
      have hok : ∀ sink, run_workflow wf st0 sink root fs0 =
          .ok ⟨feedbackOf wf st0 root fs0 sfbs outs, (runOut wf st0 root fs0).stages,
            (runOut wf st0 root fs0).fs,
            writesFor sink (serializeFeedback (feedbackOf wf st0 root fs0 sfbs outs))⟩ :=
        fun sink => run_workflow_eq_ok wf st0 sink root fs0 sfbs outs hasm
      refine ⟨?_, ?_, ?_, ?_, ?_, ?_⟩
      · rw [hok]; rfl
      · rw [hok]; rfl
      · intro p; rw [hok]; rfl
      · rw [hok]; rfl
      · rw [hok]; rfl
      · intro sink; rw [hok, hok]; rfl

/-- Every reference of a step resolves against the *first* earlier step
with the referenced id. -/
def RefsOkFirst (prev : List Step) (s : Step) : Prop :=
  ∀ n S R, (n, ArgValue.stepOutput S R) ∈ s.arguments →
    ∃ t, prev.find? (fun q => q.id == S) = some t ∧ R ∈ t.return_names

/-- Operation with no parameters returning the number 2. -/
def opTwo : Operation := ⟨"opTwo", [], fun _ => .ok (.vnat 2)⟩

/-- Operation with one parameter `v`, returning it unchanged. -/
def opEcho : Operation :=
  ⟨"opEcho", [⟨"v", ParamKind.positionalOrKeyword⟩],
    fun args => match args.lookup "v" with
      | some v => .ok v
      | none => .error (.user "missing v")⟩

/-- Concrete workflow with two steps sharing the id `s` (storing 1 then
2 under return name `x`) and a third step consuming `StepOutput("s", "x")`. -/
def exC10 : Workflow :=
  ⟨"w", "1", "wf", "",
    [⟨"s", "A", opOne, [], ["x"], []⟩, ⟨"s", "B", opTwo, [], ["x"], []⟩,
      ⟨"c", "C", opEcho, [("v", ArgValue.stepOutput "s" "x")], ["y"], []⟩]⟩

/-- Concrete workflow whose reference is valid against the second same-id
step's return names but not the first's. -/
def exC10bad : Workflow :=
  ⟨"w", "1", "wf", "",
    [⟨"s", "A", opOne, [], ["x"], []⟩, ⟨"s", "B", opPair, [], ["x", "z"], []⟩,
      ⟨"c", "C", opEcho, [("v", ArgValue.stepOutput "s" "z")], ["y"], []⟩]⟩

/-- C10: validation never checks step-id uniqueness — a workflow whose
per-step checks all pass validates regardless of duplicated ids (first
conjunct, quantified over all workflows, with references resolved against
the first same-id step); the accumulated table maps every id to the
`return_names` of the *first* step carrying it (second conjunct), so a
reference valid only against a later same-id step fails (`exC10bad`); and
at execution both same-id steps store under the same key with the later
overwriting the earlier, so a downstream `StepOutput` resolves to the most
recently completed same-id step's value (the concrete run of `exC10`:
step `"c"` receives 2, and the shared entry holds step B's value). -/
theorem duplicate_step_ids :
    (∀ wf : Workflow, wf.steps ≠ [] →
      (∀ i (hi : i < wf.steps.length),
        ParamsOk (wf.steps.get ⟨i, hi⟩)
        ∧ RefsOkFirst (wf.steps.take i) (wf.steps.get ⟨i, hi⟩)) →
      wf.validate = Except.ok ())
    ∧ (∀ (steps : List Step) (S : String),
        (buildTable [] steps).lookup S =
          (steps.find? (fun s => s.id == S)).map Step.return_names)
    ∧ exC10.validate = Except.ok ()
    ∧ exC10bad.validate = Except.error (.unknownReturnName "c" "v" "s" "z")
    ∧ (runOut exC10 (List.replicate exC10.steps.length 0) ["w"] (FS.mk [] [])).err = none
    ∧ (runOut exC10 (List.replicate exC10.steps.length 0) ["w"]
        (FS.mk [] [])).rets.lookup "s" = some [("x", Val.vnat 2)]
    ∧ (runOut exC10 (List.replicate exC10.steps.length 0) ["w"]
        (FS.mk [] [])).rets.lookup "c" = some [("y", Val.vnat 2)] := by
  refine ⟨?_, ?_, rfl, rfl, rfl, rfl, rfl⟩
  · intro wf hne h
    unfold Workflow.validate
    rw [if_neg (by simpa using hne)]
    refine validateLoop_complete wf.steps [] ?_
    intro i hi
    obtain ⟨hp, hr⟩ := h i hi
    refine ⟨hp, ?_⟩
    intro n S R hmem
    obtain ⟨t, hfind, hR⟩ := hr n S R hmem
    refine ⟨t.return_names, ?_, hR⟩
    rw [buildTable_lookup S (wf.steps.take i) [] rfl, hfind]
    rfl
  · intro steps S
    exact buildTable_lookup S steps [] rfl

/-- Concrete two-step duplicate-id workflow for the C10 witness. -/
def exC10w : Workflow :=
  ⟨"w", "1", "wf", "", [⟨"s", "A", opOne, [], ["x"], []⟩, ⟨"s", "B", opTwo, [], ["x"], []⟩]⟩

/-- Witness for C10: the quantified completeness conjunct applied to a
concrete workflow with a duplicated step id, and the table lemma at a
concrete duplicated list. -/
theorem duplicate_step_ids_witness :
    exC10w.validate = Except.ok ()
    ∧ (buildTable [] exC10w.steps).lookup "s" =
        (exC10w.steps.find? (fun s => s.id == "s")).map Step.return_names := by
  constructor
  · refine duplicate_step_ids.1 exC10w (by simp [exC10w]) ?_
    intro i hi
    match i with
    | 0 =>
        refine ⟨⟨fun p hp => absurd hp ?_, fun a ha => absurd ha ?_⟩,
          fun n S R hmem => absurd hmem ?_⟩
        · simp [exC10w, opOne]
        · simp [exC10w]
        · simp [exC10w]
    | 1 =>
        refine ⟨⟨fun p hp => absurd hp ?_, fun a ha => absurd ha ?_⟩,
          fun n S R hmem => absurd hmem ?_⟩
        · simp [exC10w, opTwo]
        · simp [exC10w]
        · simp [exC10w]
    | n + 2 =>
        exact absurd hi (by simp [exC10w])
  · exact duplicate_step_ids.2.1 exC10w.steps "s"

end QFC
